import Mathlib

/-!
Verification of the Tony lexer rule table
(`src/go-tony/docs/sketchy/pygments-tony/pygments_tony.py`).

The repository ships a declarative table of regular-expression rules
(`TonyLexer.tokens`) organised into four modes (`root`, `tag-args`,
`double-string`, `block-literal`).  Each rule of each mode is translated below
into an executable matcher over `List Char`; a matcher returns the rule's
match length, the token spans the rule's action emits (relative to the match
start), and the mode-stack transition, or `none` when the pattern does not
match at the scan position.  Regular-expression semantics follow Python's
`re` with the `MULTILINE` flag (which the host library applies to all rules):
`^` matches at offset 0 or right after a newline, `$` matches at end of input
or right before a newline, `.` does not match a newline, quantifiers are
greedy with backtracking, alternatives are tried left to right, and the
whitespace class is modelled for the ASCII range
(space, tab, newline, carriage return, vertical tab, form feed).

The matching driver (the host library's engine, not part of this repository's
sources) is modelled from the spec: starting in mode `root` at offset 0, the
rules of the current mode are tried in table order, the first rule matching a
non-empty span wins, its tokens are emitted and its transition applied, and
the offset advances past the match; if no rule matches, one plain-text token
covering exactly one character is emitted and the offset advances by one.
A `bygroups` action emits one token per non-empty capture group (matched text
outside every group yields no token), as the host library defines it.
-/

namespace Tony

/-- Token kinds, mirroring the host-library token types the rule table uses:
`Comment.Special`, `Comment`, `Operator`, `Keyword`, `Keyword.Constant`,
`Name.Variable`, `Punctuation`, `Text`, `String.Double`, `String.Single`,
`String.Escape`, `Number.Float`, `Number.Integer`, `Number.Hex`, `Number.Oct`,
`Name`, and plain `String` (block-literal content). -/
inductive Kind where
  | commentSpecial
  | comment
  | operator
  | keyword
  | keywordConstant
  | nameVariable
  | punctuation
  | text
  | stringDouble
  | stringSingle
  | stringEscape
  | numberFloat
  | numberInteger
  | numberHex
  | numberOct
  | name
  | string
  deriving DecidableEq, Repr

/-- The four lexical modes of `TonyLexer.tokens`. -/
inductive Mode where
  | root
  | tagArgs
  | doubleString
  | blockLiteral
  deriving DecidableEq, Repr

/-- Mode-stack transition attached to a rule. -/
inductive Trans where
  | stay
  | push (m : Mode)
  | pop
  deriving DecidableEq, Repr

/-- A token span a rule emits, relative to the match start. -/
structure TokSpec where
  off : Nat
  len : Nat
  kind : Kind
  deriving DecidableEq, Repr

/-- Result of a rule matching at the scan position: emitted spans, total match
length, and the transition. -/
structure RuleOut where
  toks : List TokSpec
  len : Nat
  trans : Trans
  deriving DecidableEq, Repr

/-- An emitted token: absolute offset, kind, and the lexeme. -/
structure Token where
  off : Nat
  kind : Kind
  lex : List Char
  deriving DecidableEq, Repr

/-- A rule whose action emits a single token covering the whole match. -/
def single (k : Kind) (n : Nat) (t : Trans) : RuleOut :=
  ⟨[⟨0, n, k⟩], n, t⟩

/-- Python's `\s` (ASCII range). -/
def isWS (c : Char) : Bool :=
  c == ' ' || c == '\t' || c == '\n' || c == '\r' ||
  c == Char.ofNat 11 || c == Char.ofNat 12

/-- Python's `\w` (ASCII range), used by `\b`. -/
def isWord (c : Char) : Bool :=
  c.isAlphanum || c == '_'

/-- `[0-9a-fA-F]`. -/
def isHexD (c : Char) : Bool :=
  c.isDigit || ('a' ≤ c && c ≤ 'f') || ('A' ≤ c && c ≤ 'F')

/-- `[0-7]`. -/
def isOctD (c : Char) : Bool :=
  '0' ≤ c && c ≤ '7'

/-- The tag-name character class `[a-zA-Z0-9_.:/+=~@$%^\-&]` (rules at lines
63 and 67 of the source use the same set, written in two spellings). -/
def tagChar (c : Char) : Bool :=
  c.isAlphanum || c == '_' || c == '.' || c == ':' || c == '/' || c == '+' ||
  c == '=' || c == '~' || c == '@' || c == '$' || c == '%' || c == '^' ||
  c == '-' || c == '&'

/-- The `tag-args` bare-name class `[a-zA-Z0-9_.:/+=~@$%^&*-]`: the tag class
plus `*`. -/
def taNameChar (c : Char) : Bool :=
  tagChar c || c == '*'

/-- The `root` fallback-name class `[^\s\[\]{}:,!$.#"\'-]`. -/
def nameChar (c : Char) : Bool :=
  !(isWS c || c == '[' || c == ']' || c == '{' || c == '}' || c == ':' ||
    c == ',' || c == '!' || c == '$' || c == '.' || c == '#' || c == '"' ||
    c == '\'' || c == '-')

/-- The `double-string` plain-run class `[^\\"$]`. -/
def dsChar (c : Char) : Bool :=
  !(c == '\\' || c == '"' || c == '$')

/-- Length of the maximal prefix whose characters all satisfy `p`
(the span a greedy `[class]*` consumes). -/
def runLen (p : Char → Bool) : List Char → Nat
  | [] => 0
  | c :: cs => if p c then runLen p cs + 1 else 0

/-- Python's `$` under `MULTILINE` at offset `i` of `l`: end of input or right
before a newline. -/
def dollarAt (l : List Char) (i : Nat) : Bool :=
  match l.drop i with
  | [] => true
  | c :: _ => c == '\n'

/-- Offset of the first newline (or the length): where a greedy `.*` stops. -/
def lineEnd (l : List Char) : Nat :=
  runLen (fun c => !(c == '\n')) l

/-- Greatest `i ≤ k` with `f i = true` (the value a greedy quantifier settles
on when each candidate length is checked from longest to shortest). -/
def maxSat (f : Nat → Bool) : Nat → Option Nat
  | 0 => if f 0 then some 0 else none
  | k + 1 => if f (k + 1) then some (k + 1) else maxSat f k

/-- `pat` occurs as a contiguous substring of the argument. -/
def occursIn (pat : List Char) : List Char → Bool
  | [] => pat.isEmpty
  | c :: t => pat.isPrefixOf (c :: t) || occursIn pat t

/-- One of the four comment markers occurs in `l`. -/
def markerIn (l : List Char) : Bool :=
  occursIn ['T', 'O', 'D', 'O'] l || occursIn ['F', 'I', 'X', 'M', 'E'] l ||
  occursIn ['X', 'X', 'X'] l || occursIn ['N', 'O', 'T', 'E'] l

/-! ### The rules of mode `root` -/

/-- `(r'^---\s*$', Comment.Special)`: requires line start, the three dashes,
then the longest whitespace run after which `$` holds. -/
def m_docsep (ls : Bool) (l : List Char) : Option RuleOut :=
  if ls && List.isPrefixOf ['-', '-', '-'] l then
    match maxSat (fun t => dollarAt l (3 + t)) (runLen isWS (l.drop 3)) with
    | some t => some (single .commentSpecial (3 + t) .stay)
    | none => none
  else none

/-- `(r'#.*?(TODO|FIXME|XXX|NOTE).*$', Comment.Special)`: a `#` whose line
(up to the first newline) contains one of the markers after the `#`; the
trailing greedy `.*$` extends the match to the end of that line.  (A marker
cannot start at the `#` itself, and `.` does not cross a newline, so the
lazy `.*?` reaches exactly the markers inside the line after position 0.) -/
def m_commentTodo (l : List Char) : Option RuleOut :=
  match l with
  | '#' :: _ =>
    if markerIn (((l.take (lineEnd l))).drop 1) then
      some (single .commentSpecial (lineEnd l) .stay)
    else none
  | _ => none

/-- `(r'#.*$', Comment)`: a `#` comment running to the end of the line. -/
def m_comment (l : List Char) : Option RuleOut :=
  match l with
  | '#' :: _ => some (single .comment (lineEnd l) .stay)
  | _ => none

/-- `(r'^\s*<<:\s*', Operator)`: line start, a whitespace run (the greedy
`\s*` must end exactly at the first non-whitespace character because `<` is
not whitespace), the merge key, then a trailing whitespace run. -/
def m_merge (ls : Bool) (l : List Char) : Option RuleOut :=
  if ls then
    let w := runLen isWS l
    if List.isPrefixOf ['<', '<', ':'] (l.drop w) then
      some (single .operator (w + 3 + runLen isWS (l.drop (w + 3))) .stay)
    else none
  else none

/-- The lookahead `(?=\s|:|$|\[|\{|\(|,)` of the plain-tag rule (`$` before a
newline is subsumed by `\s`). -/
def la1 (l : List Char) : Bool :=
  match l with
  | [] => true
  | c :: _ =>
    isWS c || c == ':' || c == '[' || c == '{' || c == '(' || c == ','

/-- `(r'!([c]+(?:\.[c]+)*)(?=\s|:|$|\[|\{|\(|,)', Keyword)` with `c` the tag
class.  Since `.` belongs to the class, every non-empty prefix of the maximal
class run is producible by `[c]+(?:\.[c]+)*`, and greedy backtracking settles
on the longest prefix length `k ≥ 1` whose lookahead succeeds (inside the run
only `:` can satisfy the lookahead; at the run's end any of the alternatives
can). -/
def m_tag1 (l : List Char) : Option RuleOut :=
  match l with
  | '!' :: rest =>
    let r := runLen tagChar rest
    if r == 0 then none
    else
      match maxSat (fun k => decide (1 ≤ k) && la1 (l.drop (1 + k))) r with
      | some k => some (single .keyword (1 + k) .stay)
      | none => none
  | _ => none

/-- `(r'!([c]+(?:\.[c]+)*)\(', bygroups(Keyword), 'tag-args')`: the same tag
body followed by a literal `(`.  Since `(` is not in the class, the `(` can
only follow the maximal class run.  The `bygroups(Keyword)` action emits a
token only for group 1 (the name without the `!` and the `(`). -/
def m_tag2 (l : List Char) : Option RuleOut :=
  match l with
  | '!' :: rest =>
    let r := runLen tagChar rest
    if r == 0 then none
    else
      match rest.drop r with
      | '(' :: _ => some ⟨[⟨1, r, .keyword⟩], r + 2, .push .tagArgs⟩
      | _ => none
  | _ => none

/-- `(r'\$\[[^\]]+\]', Name.Variable)`: `$[`, a non-empty run of
non-`]` characters (greedy, so it ends exactly at the first `]`), then `]`. -/
def m_interp (l : List Char) : Option RuleOut :=
  match l with
  | '$' :: '[' :: rest =>
    let k := runLen (fun c => !(c == ']')) rest
    if k == 0 then none
    else
      match rest.drop k with
      | ']' :: _ => some (single .nameVariable (k + 3) .stay)
      | _ => none
  | _ => none

/-- `(r'\.\[[^\]]+\]', Name.Variable)`: node replacement `.[path]`. -/
def m_nodeRepl (l : List Char) : Option RuleOut :=
  match l with
  | '.' :: '[' :: rest =>
    let k := runLen (fun c => !(c == ']')) rest
    if k == 0 then none
    else
      match rest.drop k with
      | ']' :: _ => some (single .nameVariable (k + 3) .stay)
      | _ => none
  | _ => none

/-- Length consumed by the greedy `[\+\-]?` right after the `|` marker. -/
def optLen (rest2 : List Char) : Nat :=
  match rest2 with
  | c :: _ => if c == '+' || c == '-' then 1 else 0
  | [] => 0

/-- `(r'^(\s*)(\|[\+\-]?)\s*$', bygroups(Text, Punctuation), 'block-literal')`:
line start, group 1 the whitespace run (which must end exactly at the `|`),
group 2 the marker with an optional `+` or `-`, then the longest whitespace
run after which `$` holds.  `bygroups` emits group 1 (only when non-empty)
and group 2; the trailing whitespace is matched but yields no token. -/
def m_blockMarker (ls : Bool) (l : List Char) : Option RuleOut :=
  if ls then
    let w := runLen isWS l
    match l.drop w with
    | '|' :: rest2 =>
      match maxSat (fun t => dollarAt l (w + 1 + optLen rest2 + t))
          (runLen isWS (l.drop (w + 1 + optLen rest2))) with
      | some t =>
        some ⟨(if w == 0 then [] else [⟨0, w, .text⟩]) ++
              [⟨w, 1 + optLen rest2, .punctuation⟩],
              w + 1 + optLen rest2 + t, .push .blockLiteral⟩
      | none => none
    | _ => none
  else none

/-- `(r'"', String.Double, 'double-string')`. -/
def m_dquoteOpen (l : List Char) : Option RuleOut :=
  match l with
  | '"' :: _ => some (single .stringDouble 1 (.push .doubleString))
  | _ => none

/-- Scanner for the body of `(r"'([^'\\]|\\.)*'", String.Single)` after the
opening quote: returns the number of characters up to and including the
closing quote.  The repetition is deterministic: at a quote the star must
stop (and the close matches), at a backslash only `\\.` applies (`.` not a
newline), otherwise only `[^'\\]` applies; no star boundary other than the
final one can carry the closing quote. -/
def sstrScan : List Char → Option Nat
  | [] => none
  | c :: rest =>
    if c == '\'' then some 1
    else if c == '\\' then
      match rest with
      | [] => none
      | d :: rest2 =>
        if d == '\n' then none
        else (sstrScan rest2).map (fun x => x + 2)
    else (sstrScan rest).map (fun x => x + 1)

/-- `(r"'([^'\\]|\\.)*'", String.Single)`. -/
def m_sstring (l : List Char) : Option RuleOut :=
  match l with
  | '\'' :: rest => (sstrScan rest).map (fun m => single .stringSingle (1 + m) .stay)
  | _ => none

/-- Length of the optional leading `-` of the numeral rules. -/
def negLen (l : List Char) : Nat :=
  match l with
  | '-' :: _ => 1
  | _ => 0

/-- `(r'-?\d+\.\d+', Number.Float)`. -/
def m_float (l : List Char) : Option RuleOut :=
  let n := negLen l
  let d1 := runLen Char.isDigit (l.drop n)
  if d1 == 0 then none
  else
    match l.drop (n + d1) with
    | '.' :: rest2 =>
      let d2 := runLen Char.isDigit rest2
      if d2 == 0 then none
      else some (single .numberFloat (n + d1 + 1 + d2) .stay)
    | _ => none

/-- `(r'-?\d+', Number.Integer)`. -/
def m_int (l : List Char) : Option RuleOut :=
  let n := negLen l
  let d1 := runLen Char.isDigit (l.drop n)
  if d1 == 0 then none
  else some (single .numberInteger (n + d1) .stay)

/-- `(r'-?0[xX][0-9a-fA-F]+', Number.Hex)`. -/
def m_hex (l : List Char) : Option RuleOut :=
  let n := negLen l
  match l.drop n with
  | '0' :: x :: rest =>
    if x == 'x' || x == 'X' then
      let h := runLen isHexD rest
      if h == 0 then none
      else some (single .numberHex (n + 2 + h) .stay)
    else none
  | _ => none

/-- `(r'-?0[oO][0-7]+', Number.Oct)`. -/
def m_oct (l : List Char) : Option RuleOut :=
  let n := negLen l
  match l.drop n with
  | '0' :: x :: rest =>
    if x == 'o' || x == 'O' then
      let h := runLen isOctD rest
      if h == 0 then none
      else some (single .numberOct (n + 2 + h) .stay)
    else none
  | _ => none

/-- `\b` after the literal, given the rest of the input past it. -/
def wordEndOk (l : List Char) : Bool :=
  match l with
  | [] => true
  | c :: _ => !(isWord c)

/-- `(r'\b(true|false|null)\b', Keyword.Constant)`: the leading `\b` holds
when the previous character is absent or a non-word character (the literals
all start with a word character); the trailing `\b` when the following
character is absent or a non-word character. -/
def m_bool (prev : Option Char) (l : List Char) : Option RuleOut :=
  let bOK :=
    match prev with
    | none => true
    | some c => !(isWord c)
  if bOK then
    if List.isPrefixOf ['t', 'r', 'u', 'e'] l && wordEndOk (l.drop 4) then
      some (single .keywordConstant 4 .stay)
    else if List.isPrefixOf ['f', 'a', 'l', 's', 'e'] l && wordEndOk (l.drop 5) then
      some (single .keywordConstant 5 .stay)
    else if List.isPrefixOf ['n', 'u', 'l', 'l'] l && wordEndOk (l.drop 4) then
      some (single .keywordConstant 4 .stay)
    else none
  else none

/-- `(r'[\[\]{}]', Punctuation)`. -/
def m_brack (l : List Char) : Option RuleOut :=
  match l with
  | c :: _ =>
    if c == '[' || c == ']' || c == '{' || c == '}' then
      some (single .punctuation 1 .stay)
    else none
  | [] => none

/-- `(r'[:,-]\s+', Punctuation)`. -/
def m_punct2 (l : List Char) : Option RuleOut :=
  match l with
  | c :: rest =>
    if c == ':' || c == ',' || c == '-' then
      let w := runLen isWS rest
      if w == 0 then none else some (single .punctuation (1 + w) .stay)
    else none
  | [] => none

/-- `(r'\s+', Text)`. -/
def m_ws (l : List Char) : Option RuleOut :=
  let w := runLen isWS l
  if w == 0 then none else some (single .text w .stay)

/-- `(r'[^\s\[\]{}:,!$.#"\'-]+', Name)`. -/
def m_name (l : List Char) : Option RuleOut :=
  let w := runLen nameChar l
  if w == 0 then none else some (single .name w .stay)

/-! ### The rules of mode `tag-args` -/

/-- `(r'[a-zA-Z0-9_.:/+=~@$%^&*-]+', Name)` (tag-args bare name). -/
def m_taName (l : List Char) : Option RuleOut :=
  let w := runLen taNameChar l
  if w == 0 then none else some (single .name w .stay)

/-- `(r',', Punctuation)`. -/
def m_comma (l : List Char) : Option RuleOut :=
  match l with
  | ',' :: _ => some (single .punctuation 1 .stay)
  | _ => none

/-- `(r'\)', Keyword, '#pop')`. -/
def m_closeParen (l : List Char) : Option RuleOut :=
  match l with
  | ')' :: _ => some (single .keyword 1 .pop)
  | _ => none

/-! ### The rules of mode `double-string` -/

/-- `(r'\\[\\"nrtbf]', String.Escape)`. -/
def m_escape (l : List Char) : Option RuleOut :=
  match l with
  | '\\' :: c :: _ =>
    if c == '\\' || c == '"' || c == 'n' || c == 'r' || c == 't' ||
       c == 'b' || c == 'f' then
      some (single .stringEscape 2 .stay)
    else none
  | _ => none

/-- `(r'"', String.Double, '#pop')`. -/
def m_dquoteClose (l : List Char) : Option RuleOut :=
  match l with
  | '"' :: _ => some (single .stringDouble 1 .pop)
  | _ => none

/-- `(r'[^\\"$]+', String.Double)`. -/
def m_dsPlain (l : List Char) : Option RuleOut :=
  let w := runLen dsChar l
  if w == 0 then none else some (single .stringDouble w .stay)

/-! ### The rules of mode `block-literal` -/

/-- `(r'^(\s+).*$', String)`: line start, a non-empty greedy whitespace run,
then `.*` up to the end of the line (where `$` always holds). -/
def m_blockLine (ls : Bool) (l : List Char) : Option RuleOut :=
  if ls then
    let w := runLen isWS l
    if w == 0 then none
    else some (single .string (w + lineEnd (l.drop w)) .stay)
  else none

/-- `(r'^[^\s]', Text, '#pop')`: a non-whitespace character at line start
ends the block (consuming that one character). -/
def m_blockEnd (ls : Bool) (l : List Char) : Option RuleOut :=
  if ls then
    match l with
    | c :: _ => if isWS c then none else some (single .text 1 .pop)
    | [] => none
  else none

/-! ### Rule tables and the driver -/

/-- First-match choice between two rules (table order). -/
def ob (a b : Option RuleOut) : Option RuleOut :=
  match a with
  | some r => some r
  | none => b

/-- The `root` rule table, in source order. -/
def rootRules (ls : Bool) (prev : Option Char) (l : List Char) : Option RuleOut :=
  ob (m_docsep ls l) (ob (m_commentTodo l) (ob (m_comment l) (ob (m_merge ls l)
    (ob (m_tag1 l) (ob (m_tag2 l) (ob (m_interp l) (ob (m_nodeRepl l)
    (ob (m_blockMarker ls l) (ob (m_dquoteOpen l) (ob (m_sstring l)
    (ob (m_float l) (ob (m_int l) (ob (m_hex l) (ob (m_oct l)
    (ob (m_bool prev l) (ob (m_brack l) (ob (m_punct2 l)
    (ob (m_ws l) (m_name l)))))))))))))))))))

/-- The `tag-args` rule table, in source order. -/
def tagArgsRules (prev : Option Char) (l : List Char) : Option RuleOut :=
  ob (m_dquoteOpen l) (ob (m_sstring l) (ob (m_float l) (ob (m_int l)
    (ob (m_bool prev l) (ob (m_taName l) (ob (m_comma l)
    (ob (m_closeParen l) (m_ws l))))))))

/-- The `double-string` rule table, in source order. -/
def dsRules (l : List Char) : Option RuleOut :=
  ob (m_escape l) (ob (m_interp l) (ob (m_dquoteClose l) (m_dsPlain l)))

/-- The `block-literal` rule table, in source order. -/
def blRules (ls : Bool) (l : List Char) : Option RuleOut :=
  ob (m_blockLine ls l) (m_blockEnd ls l)

/-- The character right before the scan position (for `^` and `\b`). -/
def prevCh (s : List Char) (pos : Nat) : Option Char :=
  if pos == 0 then none else (s.drop (pos - 1)).head?

/-- `^` under `MULTILINE`: offset 0 or right after a newline. -/
def lineStartB (s : List Char) (pos : Nat) : Bool :=
  pos == 0 || prevCh s pos == some '\n'

/-- First matching rule of the given mode at the scan position. -/
def firstMatch (s : List Char) (pos : Nat) (m : Mode) : Option RuleOut :=
  let l := s.drop pos
  match m with
  | .root => rootRules (lineStartB s pos) (prevCh s pos) l
  | .tagArgs => tagArgsRules (prevCh s pos) l
  | .doubleString => dsRules l
  | .blockLiteral => blRules (lineStartB s pos) l

/-- The active mode: top of the stack. -/
def curMode (stack : List Mode) : Mode :=
  stack.headD Mode.root

/-- Apply a rule's transition to the mode stack. -/
def applyTrans (t : Trans) (stack : List Mode) : List Mode :=
  match t with
  | .stay => stack
  | .push m => m :: stack
  | .pop => stack.tail

/-- Materialise a relative token span as a token with its lexeme. -/
def mkTok (s : List Char) (pos : Nat) (tk : TokSpec) : Token :=
  ⟨pos + tk.off, tk.kind, (s.drop (pos + tk.off)).take tk.len⟩

/-- Result of one driver iteration. -/
structure StepOut where
  toks : List Token
  pos : Nat
  stack : List Mode
  deriving Repr

/-- One driver iteration: first matching rule in table order wins; on no
match, one plain-text token of length one is emitted and the offset advances
by one (the spec's error-recovery fallback). -/
def step (s : List Char) (pos : Nat) (stack : List Mode) : StepOut :=
  match firstMatch s pos (curMode stack) with
  | some r => ⟨r.toks.map (mkTok s pos), pos + r.len, applyTrans r.trans stack⟩
  | none => ⟨[⟨pos, Kind.text, (s.drop pos).take 1⟩], pos + 1, stack⟩

/-- Fuel-indexed driver loop; `s.length` fuel always suffices because every
iteration advances the offset. -/
def tokenizeAux (s : List Char) : Nat → Nat → List Mode → List Token × List Mode
  | 0, _, stack => ([], stack)
  | fuel + 1, pos, stack =>
    if pos < s.length then
      let o := step s pos stack
      let r := tokenizeAux s fuel o.pos o.stack
      (o.toks ++ r.1, r.2)
    else ([], stack)

/-- Tokenize from offset 0 in mode `root`; returns the token sequence and the
final mode stack. -/
def tokenizeFull (s : List Char) : List Token × List Mode :=
  tokenizeAux s s.length 0 [Mode.root]

/-- The emitted token sequence. -/
def tokenize (s : List Char) : List Token :=
  (tokenizeFull s).1

/-- The visited `(offset, mode stack)` states, in order. -/
def traceAux (s : List Char) : Nat → Nat → List Mode → List (Nat × List Mode)
  | 0, pos, stack => [(pos, stack)]
  | fuel + 1, pos, stack =>
    if pos < s.length then
      (pos, stack) ::
        (let o := step s pos stack
         traceAux s fuel o.pos o.stack)
    else [(pos, stack)]

/-- The driver states visited while tokenizing `s`. -/
def traceOf (s : List Char) : List (Nat × List Mode) :=
  traceAux s s.length 0 [Mode.root]

/-- Number of driver iterations, fuel-indexed. -/
def stepsAux (s : List Char) : Nat → Nat → List Mode → Nat
  | 0, _, _ => 0
  | fuel + 1, pos, stack =>
    if pos < s.length then
      1 + (let o := step s pos stack
           stepsAux s fuel o.pos o.stack)
    else 0

/-- Number of driver iterations used to tokenize `s`. -/
def numSteps (s : List Char) : Nat :=
  stepsAux s s.length 0 [Mode.root]

/-- Sum of the emitted lexeme lengths. -/
def sumLex (ts : List Token) : Nat :=
  ts.foldr (fun t a => t.lex.length + a) 0

/-- Concatenation of the emitted lexemes, in order. -/
def concatLex (ts : List Token) : List Char :=
  ts.foldr (fun t a => t.lex ++ a) []

/-- Tokens are non-empty, pairwise non-overlapping and in strictly increasing
offset order, starting at or after `lo`. -/
def chainedFrom : Nat → List Token → Bool
  | _, [] => true
  | lo, t :: ts =>
    decide (lo ≤ t.off) && decide (1 ≤ t.lex.length) &&
      chainedFrom (t.off + t.lex.length) ts

/-- Well-placedness of a rule's relative token spans: non-empty, ordered,
non-overlapping, and contained in the first `bound` characters of the match. -/
def RelOk (bound : Nat) : Nat → List TokSpec → Prop
  | lo, [] => lo ≤ bound
  | lo, tk :: rest => lo ≤ tk.off ∧ 1 ≤ tk.len ∧ RelOk bound (tk.off + tk.len) rest

/-- Well-formedness of a rule match: non-empty, within the remaining input,
with well-placed token spans. -/
def WF (l : List Char) (r : RuleOut) : Prop :=
  1 ≤ r.len ∧ r.len ≤ l.length ∧ RelOk r.len 0 r.toks

/-- Shape of every operator token in the emitted stream: it sits at a line
start and its span is a whitespace run followed by the merge key `<<:`. -/
def OpShape (s : List Char) (t : Token) : Prop :=
  lineStartB s t.off = true ∧
  (((s.drop t.off).take (runLen isWS (s.drop t.off))).all isWS) = true ∧
  List.isPrefixOf ['<', '<', ':']
    ((s.drop t.off).drop (runLen isWS (s.drop t.off))) = true

/-- Emitted tokens are non-empty, ordered, non-overlapping, start at or after
`lo` and end at or before `m`. -/
def ChUp (m : Nat) : Nat → List Token → Prop
  | lo, [] => lo ≤ m
  | lo, t :: ts => lo ≤ t.off ∧ 1 ≤ t.lex.length ∧ ChUp m (t.off + t.lex.length) ts

end Tony

namespace Tony

/-! ### Helper lemmas -/

theorem runLen_le (p : Char → Bool) (l : List Char) : runLen p l ≤ l.length := by
  induction l with
  | nil => simp [runLen]
  | cons c cs ih =>
    simp only [runLen, List.length_cons]
    split
    · omega
    · omega

theorem runLen_take_all (p : Char → Bool) (l : List Char) :
    ((l.take (runLen p l)).all p) = true := by
  induction l with
  | nil => simp [runLen]
  | cons c cs ih =>
    simp only [runLen]
    split
    · simp [List.all_cons, *]
    · simp

theorem runLen_all_eq_length (p : Char → Bool) (l : List Char)
    (h : l.all p = true) : runLen p l = l.length := by
  induction l with
  | nil => simp [runLen]
  | cons c cs ih =>
    simp only [List.all_cons, Bool.and_eq_true] at h
    simp [runLen, h.1, ih h.2]

theorem isPre_len {p l : List Char} (h : List.isPrefixOf p l = true) :
    p.length ≤ l.length := by
  induction p generalizing l with
  | nil => simp
  | cons a as ih =>
    cases l with
    | nil => simp [List.isPrefixOf] at h
    | cons b bs =>
      simp only [List.isPrefixOf, Bool.and_eq_true] at h
      simpa using ih h.2

theorem take_isPre (l : List Char) (n : Nat) :
    List.isPrefixOf (l.take n) l = true := by
  induction l generalizing n with
  | nil => simp [List.isPrefixOf]
  | cons c cs ih =>
    cases n with
    | zero => simp [List.isPrefixOf]
    | succ n => simpa [List.isPrefixOf] using ih n

theorem maxSat_facts {f : Nat → Bool} :
    ∀ {k i : Nat}, maxSat f k = some i → i ≤ k ∧ f i = true := by
  intro k
  induction k with
  | zero =>
    intro i h
    simp only [maxSat] at h
    split at h
    · cases h; simp_all
    · cases h
  | succ k ih =>
    intro i h
    simp only [maxSat] at h
    split at h
    · cases h; simp_all
    · have h2 := ih h
      exact ⟨Nat.le_succ_of_le h2.1, h2.2⟩

theorem maxSat_of_true {f : Nat → Bool} {k : Nat} (h : f k = true) :
    maxSat f k = some k := by
  cases k with
  | zero => simp [maxSat, h]
  | succ k => simp [maxSat, h]

theorem sstrScan_le : ∀ (l : List Char) (m : Nat),
    sstrScan l = some m → 1 ≤ m ∧ m ≤ l.length := by
  intro l
  induction l using sstrScan.induct with
  | case1 => intro m h; simp [sstrScan] at h
  | case2 c rest hq =>
    intro m h; unfold sstrScan at h; rw [if_pos hq] at h
    cases h; simp
  | case3 c hq hb =>
    intro m h; unfold sstrScan at h; rw [if_neg hq, if_pos hb] at h
    cases h
  | case4 c hq hb d rest2 hn =>
    intro m h; unfold sstrScan at h; rw [if_neg hq, if_pos hb] at h
    replace h : (if (d == '\n') = true then none
        else Option.map (fun x => x + 2) (sstrScan rest2)) = some m := h
    rw [if_pos hn] at h
    cases h
  | case5 c hq hb d rest2 hn ih =>
    intro m h; unfold sstrScan at h; rw [if_neg hq, if_pos hb] at h
    replace h : (if (d == '\n') = true then none
        else Option.map (fun x => x + 2) (sstrScan rest2)) = some m := h
    rw [if_neg hn, Option.map_eq_some'] at h
    obtain ⟨x, hx, hm⟩ := h
    have hbb := ih x hx
    simp only [List.length_cons]
    omega
  | case6 c rest hq hb ih =>
    intro m h; unfold sstrScan at h; rw [if_neg hq, if_neg hb, Option.map_eq_some'] at h
    obtain ⟨x, hx, hm⟩ := h
    have hbb := ih x hx
    simp only [List.length_cons]
    omega

theorem lineEnd_le (l : List Char) : lineEnd l ≤ l.length :=
  runLen_le _ l

theorem lineEnd_eq_length {l : List Char} (h : '\n' ∉ l) :
    lineEnd l = l.length := by
  apply runLen_all_eq_length
  simp only [List.all_eq_true]
  intro c hc
  simp only [Bool.not_eq_eq_eq_not, Bool.not_true, beq_eq_false_iff_ne]
  intro hcc
  exact h (hcc ▸ hc)

theorem tokAux_stopped (s : List Char) (fuel pos : Nat) (stack : List Mode)
    (h : ¬ pos < s.length) : tokenizeAux s fuel pos stack = ([], stack) := by
  cases fuel with
  | zero => rfl
  | succ fuel => simp [tokenizeAux, h]


/-! ### Shape lemmas: what each rule can return -/

theorem single_parts (k : Kind) (n : Nat) (t : Trans) :
    (single k n t).toks = [⟨0, n, k⟩] ∧ (single k n t).len = n ∧
    (single k n t).trans = t := ⟨rfl, rfl, rfl⟩

theorem m_docsep_shape {ls : Bool} {l : List Char} {r : RuleOut}
    (h : m_docsep ls l = some r) :
    ∃ n, r = single .commentSpecial n .stay ∧ 1 ≤ n ∧ n ≤ l.length := by
  unfold m_docsep at h
  split at h
  · rename_i hc
    simp only [Bool.and_eq_true] at hc
    split at h
    · rename_i t ht
      cases h
      have h1 := maxSat_facts ht
      have h2 := runLen_le isWS (l.drop 3)
      have h3 : (3 : Nat) ≤ l.length := by
        have h4 := isPre_len hc.2
        simpa using h4
      simp only [List.length_drop] at h2
      exact ⟨3 + t, rfl, by omega, by omega⟩
    · cases h
  · cases h

theorem m_commentTodo_shape {l : List Char} {r : RuleOut}
    (h : m_commentTodo l = some r) :
    ∃ n, r = single .commentSpecial n .stay ∧ 1 ≤ n ∧ n ≤ l.length := by
  unfold m_commentTodo at h
  split at h
  · rename_i rest
    split at h
    · cases h
      refine ⟨lineEnd ('#' :: rest), rfl, ?_, lineEnd_le _⟩
      simp [lineEnd, runLen]
    · cases h
  · cases h

theorem m_comment_shape {l : List Char} {r : RuleOut}
    (h : m_comment l = some r) :
    ∃ n, r = single .comment n .stay ∧ 1 ≤ n ∧ n ≤ l.length := by
  unfold m_comment at h
  split at h
  · rename_i rest
    cases h
    refine ⟨lineEnd ('#' :: rest), rfl, ?_, lineEnd_le _⟩
    simp [lineEnd, runLen]
  · cases h

theorem m_merge_shape {ls : Bool} {l : List Char} {r : RuleOut}
    (h : m_merge ls l = some r) :
    ls = true ∧
    ∃ n, r = single .operator n .stay ∧ 1 ≤ n ∧ n ≤ l.length ∧
      ((l.take (runLen isWS l)).all isWS) = true ∧
      List.isPrefixOf ['<', '<', ':'] (l.drop (runLen isWS l)) = true := by
  unfold m_merge at h
  dsimp only at h
  split at h
  · rename_i hls
    split at h
    · rename_i hpre
      cases h
      have h1 := isPre_len hpre
      have h2 := runLen_le isWS l
      have h3 := runLen_le isWS (l.drop (runLen isWS l + 3))
      simp only [List.length_cons, List.length_nil, List.length_drop] at h1 h3
      exact ⟨hls, _, rfl, by omega, by omega, runLen_take_all isWS l, hpre⟩
    · cases h
  · cases h

theorem m_tag1_shape {l : List Char} {r : RuleOut}
    (h : m_tag1 l = some r) :
    ∃ n, r = single .keyword n .stay ∧ 1 ≤ n ∧ n ≤ l.length := by
  unfold m_tag1 at h
  dsimp only at h
  split at h
  · rename_i rest
    split at h
    · cases h
    · rename_i hr0
      split at h
      · rename_i k hk
        cases h
        have h1 := maxSat_facts hk
        have h2 := runLen_le tagChar rest
        exact ⟨1 + k, rfl, by omega, by simp only [List.length_cons]; omega⟩
      · cases h
  · cases h

theorem m_tag2_shape {l : List Char} {r : RuleOut}
    (h : m_tag2 l = some r) :
    ∃ rl rest, l = '!' :: rest ∧ runLen tagChar rest = rl ∧
      r = ⟨[⟨1, rl, .keyword⟩], rl + 2, .push .tagArgs⟩ ∧ 1 ≤ rl ∧
      rl + 2 ≤ l.length ∧ (∃ tl, rest.drop rl = '(' :: tl) := by
  unfold m_tag2 at h
  dsimp only at h
  split at h
  · rename_i rest
    split at h
    · cases h
    · rename_i hr0
      split at h
      · rename_i tl htl
        cases h
        have h2 : runLen tagChar rest ≤ rest.length := runLen_le tagChar rest
        have h3 : (rest.drop (runLen tagChar rest)).length = tl.length + 1 := by
          rw [htl]; simp
        simp only [List.length_drop] at h3
        refine ⟨runLen tagChar rest, rest, rfl, rfl, rfl, ?_, ?_, ⟨tl, htl⟩⟩
        · simp only [beq_iff_eq] at hr0; omega
        · simp only [List.length_cons]; omega
      · cases h
  · cases h

theorem m_interp_shape {l : List Char} {r : RuleOut}
    (h : m_interp l = some r) :
    ∃ n, r = single .nameVariable n .stay ∧ 1 ≤ n ∧ n ≤ l.length := by
  unfold m_interp at h
  dsimp only at h
  split at h
  · rename_i rest
    split at h
    · cases h
    · rename_i hk0
      split at h
      · rename_i tl htl
        cases h
        have h3 : (rest.drop (runLen (fun c => !(c == ']')) rest)).length = tl.length + 1 := by
          rw [htl]; simp
        simp only [List.length_drop] at h3
        have h2 := runLen_le (fun c => !(c == ']')) rest
        refine ⟨_, rfl, by omega, ?_⟩
        simp only [List.length_cons]
        omega
      · cases h
  · cases h

theorem m_nodeRepl_shape {l : List Char} {r : RuleOut}
    (h : m_nodeRepl l = some r) :
    ∃ n, r = single .nameVariable n .stay ∧ 1 ≤ n ∧ n ≤ l.length := by
  unfold m_nodeRepl at h
  dsimp only at h
  split at h
  · rename_i rest
    split at h
    · cases h
    · rename_i hk0
      split at h
      · rename_i tl htl
        cases h
        have h3 : (rest.drop (runLen (fun c => !(c == ']')) rest)).length = tl.length + 1 := by
          rw [htl]; simp
        simp only [List.length_drop] at h3
        have h2 := runLen_le (fun c => !(c == ']')) rest
        refine ⟨_, rfl, by omega, ?_⟩
        simp only [List.length_cons]
        omega
      · cases h
  · cases h

theorem optLen_le (rest2 : List Char) : optLen rest2 ≤ rest2.length := by
  unfold optLen
  split
  · split <;> simp
  · simp

theorem m_blockMarker_shape {ls : Bool} {l : List Char} {r : RuleOut}
    (h : m_blockMarker ls l = some r) :
    ls = true ∧ ∃ w opt t,
      r.toks = (if w == 0 then ([] : List TokSpec) else [⟨0, w, Kind.text⟩]) ++
        [⟨w, 1 + opt, Kind.punctuation⟩] ∧
      r.len = w + 1 + opt + t ∧ r.trans = .push .blockLiteral ∧
      1 ≤ r.len ∧ r.len ≤ l.length := by
  unfold m_blockMarker at h
  dsimp only at h
  split at h
  · rename_i hls
    split at h
    · rename_i rest2 heq
      have hw := runLen_le isWS l
      have hlen : (l.drop (runLen isWS l)).length = rest2.length + 1 := by
        rw [heq]; simp
      simp only [List.length_drop] at hlen
      split at h
      · rename_i t ht
        cases h
        have h1 := maxSat_facts ht
        have h2 := runLen_le isWS (l.drop (runLen isWS l + 1 + optLen rest2))
        have h3 := optLen_le rest2
        simp only [List.length_drop] at h2
        refine ⟨hls, runLen isWS l, optLen rest2, t, rfl, rfl, rfl, ?_, ?_⟩
        · show 1 ≤ runLen isWS l + 1 + optLen rest2 + t
          omega
        · show runLen isWS l + 1 + optLen rest2 + t ≤ l.length
          omega
      · cases h
    · cases h
  · cases h

theorem m_dquoteOpen_shape {l : List Char} {r : RuleOut}
    (h : m_dquoteOpen l = some r) :
    r = single .stringDouble 1 (.push .doubleString) ∧ 1 ≤ l.length := by
  unfold m_dquoteOpen at h
  split at h
  · cases h
    rename_i rest
    exact ⟨rfl, by simp⟩
  · cases h

theorem m_sstring_shape {l : List Char} {r : RuleOut}
    (h : m_sstring l = some r) :
    ∃ n, r = single .stringSingle n .stay ∧ 1 ≤ n ∧ n ≤ l.length := by
  unfold m_sstring at h
  split at h
  · rename_i rest
    rw [Option.map_eq_some'] at h
    obtain ⟨m, hm, hr⟩ := h
    have hb := sstrScan_le rest m hm
    exact ⟨1 + m, hr.symm, by omega, by simp only [List.length_cons]; omega⟩
  · cases h

theorem m_float_shape {l : List Char} {r : RuleOut}
    (h : m_float l = some r) :
    ∃ n, r = single .numberFloat n .stay ∧ 1 ≤ n ∧ n ≤ l.length := by
  unfold m_float at h
  dsimp only at h
  split at h
  · cases h
  · rename_i hd1
    split at h
    · rename_i rest2 heq
      split at h
      · cases h
      · rename_i hd2
        cases h
        have h1 : (l.drop (negLen l + runLen Char.isDigit (l.drop (negLen l)))).length
            = rest2.length + 1 := by rw [heq]; simp
        have h2 := runLen_le Char.isDigit rest2
        simp only [List.length_drop] at h1
        refine ⟨_, rfl, by omega, by omega⟩
    · cases h

theorem m_int_shape {l : List Char} {r : RuleOut}
    (h : m_int l = some r) :
    ∃ n, r = single .numberInteger n .stay ∧ 1 ≤ n ∧ n ≤ l.length := by
  unfold m_int at h
  dsimp only at h
  split at h
  · cases h
  · rename_i hd1
    cases h
    have h1 := runLen_le Char.isDigit (l.drop (negLen l))
    simp only [List.length_drop] at h1
    simp only [beq_iff_eq] at hd1
    refine ⟨_, rfl, by omega, by omega⟩

theorem m_hex_shape {l : List Char} {r : RuleOut}
    (h : m_hex l = some r) :
    ∃ n, r = single .numberHex n .stay ∧ 1 ≤ n ∧ n ≤ l.length := by
  unfold m_hex at h
  dsimp only at h
  split at h
  · rename_i x rest heq
    split at h
    · split at h
      · cases h
      · rename_i hh
        cases h
        have h1 : (l.drop (negLen l)).length = rest.length + 2 := by rw [heq]; simp
        have h2 := runLen_le isHexD rest
        simp only [List.length_drop] at h1
        refine ⟨_, rfl, by omega, by omega⟩
    · cases h
  · cases h

theorem m_oct_shape {l : List Char} {r : RuleOut}
    (h : m_oct l = some r) :
    ∃ n, r = single .numberOct n .stay ∧ 1 ≤ n ∧ n ≤ l.length := by
  unfold m_oct at h
  dsimp only at h
  split at h
  · rename_i x rest heq
    split at h
    · split at h
      · cases h
      · rename_i hh
        cases h
        have h1 : (l.drop (negLen l)).length = rest.length + 2 := by rw [heq]; simp
        have h2 := runLen_le isOctD rest
        simp only [List.length_drop] at h1
        refine ⟨_, rfl, by omega, by omega⟩
    · cases h
  · cases h

theorem m_bool_shape {prev : Option Char} {l : List Char} {r : RuleOut}
    (h : m_bool prev l = some r) :
    ∃ n, r = single .keywordConstant n .stay ∧ 1 ≤ n ∧ n ≤ l.length := by
  unfold m_bool at h
  dsimp only at h
  split at h
  · split at h
    · rename_i hp
      simp only [Bool.and_eq_true] at hp
      have h1 := isPre_len hp.1
      simp only [List.length_cons, List.length_nil] at h1
      cases h
      exact ⟨4, rfl, by omega, by omega⟩
    · split at h
      · rename_i hp
        simp only [Bool.and_eq_true] at hp
        have h1 := isPre_len hp.1
        simp only [List.length_cons, List.length_nil] at h1
        cases h
        exact ⟨5, rfl, by omega, by omega⟩
      · split at h
        · rename_i hp
          simp only [Bool.and_eq_true] at hp
          have h1 := isPre_len hp.1
          simp only [List.length_cons, List.length_nil] at h1
          cases h
          exact ⟨4, rfl, by omega, by omega⟩
        · cases h
  · cases h

theorem m_brack_shape {l : List Char} {r : RuleOut}
    (h : m_brack l = some r) :
    ∃ n, r = single .punctuation n .stay ∧ 1 ≤ n ∧ n ≤ l.length := by
  unfold m_brack at h
  split at h
  · split at h
    · cases h
      rename_i c rest hc
      exact ⟨1, rfl, by omega, by simp⟩
    · cases h
  · cases h

theorem m_punct2_shape {l : List Char} {r : RuleOut}
    (h : m_punct2 l = some r) :
    ∃ n, r = single .punctuation n .stay ∧ 1 ≤ n ∧ n ≤ l.length := by
  unfold m_punct2 at h
  split at h
  · rename_i c rest
    split at h
    · dsimp only at h
      split at h
      · cases h
      · rename_i hw
        cases h
        have h1 := runLen_le isWS rest
        refine ⟨_, rfl, by omega, by simp only [List.length_cons]; omega⟩
    · cases h
  · cases h

theorem m_ws_shape {l : List Char} {r : RuleOut}
    (h : m_ws l = some r) :
    ∃ n, r = single .text n .stay ∧ 1 ≤ n ∧ n ≤ l.length := by
  unfold m_ws at h
  dsimp only at h
  split at h
  · cases h
  · rename_i hw
    cases h
    have h1 := runLen_le isWS l
    simp only [beq_iff_eq] at hw
    exact ⟨_, rfl, by omega, h1⟩

theorem m_name_shape {l : List Char} {r : RuleOut}
    (h : m_name l = some r) :
    ∃ n, r = single .name n .stay ∧ 1 ≤ n ∧ n ≤ l.length := by
  unfold m_name at h
  dsimp only at h
  split at h
  · cases h
  · rename_i hw
    cases h
    have h1 := runLen_le nameChar l
    simp only [beq_iff_eq] at hw
    exact ⟨_, rfl, by omega, h1⟩

theorem m_taName_shape {l : List Char} {r : RuleOut}
    (h : m_taName l = some r) :
    ∃ n, r = single .name n .stay ∧ 1 ≤ n ∧ n ≤ l.length := by
  unfold m_taName at h
  dsimp only at h
  split at h
  · cases h
  · rename_i hw
    cases h
    have h1 := runLen_le taNameChar l
    simp only [beq_iff_eq] at hw
    exact ⟨_, rfl, by omega, h1⟩

theorem m_comma_shape {l : List Char} {r : RuleOut}
    (h : m_comma l = some r) :
    ∃ n, r = single .punctuation n .stay ∧ 1 ≤ n ∧ n ≤ l.length := by
  unfold m_comma at h
  split at h
  · cases h
    exact ⟨1, rfl, by omega, by simp⟩
  · cases h

theorem m_closeParen_shape {l : List Char} {r : RuleOut}
    (h : m_closeParen l = some r) :
    r = single .keyword 1 .pop ∧ 1 ≤ l.length := by
  unfold m_closeParen at h
  split at h
  · cases h
    exact ⟨rfl, by simp⟩
  · cases h

theorem m_escape_shape {l : List Char} {r : RuleOut}
    (h : m_escape l = some r) :
    ∃ n, r = single .stringEscape n .stay ∧ 1 ≤ n ∧ n ≤ l.length := by
  unfold m_escape at h
  split at h
  · split at h
    · cases h
      exact ⟨2, rfl, by omega, by simp⟩
    · cases h
  · cases h

theorem m_dquoteClose_shape {l : List Char} {r : RuleOut}
    (h : m_dquoteClose l = some r) :
    r = single .stringDouble 1 .pop ∧ 1 ≤ l.length := by
  unfold m_dquoteClose at h
  split at h
  · cases h
    exact ⟨rfl, by simp⟩
  · cases h

theorem m_dsPlain_shape {l : List Char} {r : RuleOut}
    (h : m_dsPlain l = some r) :
    ∃ n, r = single .stringDouble n .stay ∧ 1 ≤ n ∧ n ≤ l.length := by
  unfold m_dsPlain at h
  dsimp only at h
  split at h
  · cases h
  · rename_i hw
    cases h
    have h1 := runLen_le dsChar l
    simp only [beq_iff_eq] at hw
    exact ⟨_, rfl, by omega, h1⟩

theorem m_blockLine_shape {ls : Bool} {l : List Char} {r : RuleOut}
    (h : m_blockLine ls l = some r) :
    ∃ n, r = single .string n .stay ∧ 1 ≤ n ∧ n ≤ l.length := by
  unfold m_blockLine at h
  dsimp only at h
  split at h
  · split at h
    · cases h
    · rename_i hw
      cases h
      have h1 := runLen_le isWS l
      have h2 := lineEnd_le (l.drop (runLen isWS l))
      simp only [List.length_drop] at h2
      simp only [beq_iff_eq] at hw
      exact ⟨_, rfl, by omega, by omega⟩
  · cases h

theorem m_blockEnd_shape {ls : Bool} {l : List Char} {r : RuleOut}
    (h : m_blockEnd ls l = some r) :
    r = single .text 1 .pop ∧ 1 ≤ l.length := by
  unfold m_blockEnd at h
  split at h
  · split at h
    · split at h
      · cases h
      · cases h
        exact ⟨rfl, by simp⟩
    · cases h
  · cases h

/-! ### First-match composition -/

theorem ob_elim {P : RuleOut → Prop} {a b : Option RuleOut}
    (ha : ∀ r, a = some r → P r) (hb : ∀ r, b = some r → P r) :
    ∀ r, ob a b = some r → P r := by
  intro r h
  unfold ob at h
  cases hA : a with
  | some r0 =>
    rw [hA] at h
    cases h
    exact ha _ hA
  | none =>
    rw [hA] at h
    exact hb r h

theorem ob_shadow {P : RuleOut → Prop} {a b c : Option RuleOut}
    (hs : b.isSome = true → a.isSome = true)
    (ha : ∀ r, a = some r → P r) (hc : ∀ r, c = some r → P r) :
    ∀ r, ob a (ob b c) = some r → P r := by
  intro r h
  unfold ob at h
  cases hA : a with
  | some r0 =>
    rw [hA] at h
    cases h
    exact ha _ hA
  | none =>
    rw [hA] at h
    cases hB : b with
    | some r1 =>
      have h2 := hs (by rw [hB]; rfl)
      rw [hA] at h2
      simp at h2
    | none =>
      rw [hB] at h
      exact hc r h

/-- The dead tag-with-args rule: whenever it matches, the plain-tag rule
(which is earlier in the table and whose lookahead includes `(`) matches
too, so under first-match ordering the tag-with-args rule never fires. -/
theorem tag2_shadowed (l : List Char) :
    (m_tag2 l).isSome = true → (m_tag1 l).isSome = true := by
  intro h
  rw [Option.isSome_iff_exists] at h
  obtain ⟨r, hr⟩ := h
  obtain ⟨rl, rest, hl, hrl, hre, h1, h2, tl, htl⟩ := m_tag2_shape hr
  subst hl
  have e1 : m_tag1 ('!' :: rest) =
      (if (runLen tagChar rest == 0) = true then none
       else
        match maxSat (fun k => decide (1 ≤ k) && la1 (List.drop (1 + k) ('!' :: rest)))
            (runLen tagChar rest) with
        | some k => some (single Kind.keyword (1 + k) Trans.stay)
        | none => none) := rfl
  have hr0 : (runLen tagChar rest == 0) = false := by
    rw [hrl]; simp; omega
  rw [e1, hr0]
  simp only [Bool.false_eq_true, if_false]
  have hla : (fun k => decide (1 ≤ k) && la1 (List.drop (1 + k) ('!' :: rest)))
      (runLen tagChar rest) = true := by
    simp only [Bool.and_eq_true, decide_eq_true_eq]
    constructor
    · rw [hrl]; omega
    · have hd : List.drop (1 + runLen tagChar rest) ('!' :: rest) =
          rest.drop (runLen tagChar rest) := by
        have : 1 + runLen tagChar rest = runLen tagChar rest + 1 := by omega
        rw [this]
        rfl
      rw [hd, hrl, htl]
      simp [la1]
  rw [maxSat_of_true hla]
  simp

/-! ### Well-formedness of every rule -/

theorem single_WF {l : List Char} {k : Kind} {n : Nat} {t : Trans}
    (h1 : 1 ≤ n) (h2 : n ≤ l.length) : WF l (single k n t) := by
  refine ⟨h1, h2, ?_, h1, ?_⟩
  · omega
  · show 0 + n ≤ n
    omega

theorem m_tag2_WF {l : List Char} {r : RuleOut} (h : m_tag2 l = some r) :
    WF l r := by
  obtain ⟨rl, rest, hl, hrl, hre, h1, h2, tl, htl⟩ := m_tag2_shape h
  subst hre
  refine ⟨?_, h2, ?_, h1, ?_⟩
  · show 1 ≤ rl + 2
    omega
  · show (0 : Nat) ≤ 1
    omega
  · show 1 + rl ≤ rl + 2
    omega

theorem m_blockMarker_WF {ls : Bool} {l : List Char} {r : RuleOut}
    (h : m_blockMarker ls l = some r) : WF l r := by
  obtain ⟨hls, w, opt, t, htoks, hlen, htr, h1, h2⟩ := m_blockMarker_shape h
  refine ⟨h1, h2, ?_⟩
  rw [htoks, hlen]
  by_cases hw : (w == 0) = true
  · simp only [hw, if_true, List.nil_append]
    refine ⟨?_, ?_, ?_⟩
    · show (0 : Nat) ≤ w
      omega
    · show 1 ≤ 1 + opt
      omega
    · show w + (1 + opt) ≤ w + 1 + opt + t
      omega
  · simp only [hw, Bool.false_eq_true, if_false, List.cons_append,
      List.nil_append]
    simp only [beq_iff_eq] at hw
    refine ⟨?_, ?_, ?_, ?_, ?_⟩
    · show (0 : Nat) ≤ 0
      omega
    · show 1 ≤ w
      omega
    · show (0 + w : Nat) ≤ w
      omega
    · show 1 ≤ 1 + opt
      omega
    · show w + (1 + opt) ≤ w + 1 + opt + t
      omega

theorem rootRules_WF (ls : Bool) (prev : Option Char) (l : List Char) :
    ∀ r, rootRules ls prev l = some r → WF l r := by
  unfold rootRules
  refine ob_elim ?_ (ob_elim ?_ (ob_elim ?_ (ob_elim ?_ (ob_elim ?_
    (ob_elim ?_ (ob_elim ?_ (ob_elim ?_ (ob_elim ?_ (ob_elim ?_
    (ob_elim ?_ (ob_elim ?_ (ob_elim ?_ (ob_elim ?_ (ob_elim ?_
    (ob_elim ?_ (ob_elim ?_ (ob_elim ?_ (ob_elim ?_ ?_))))))))))))))))))
  · intro r h; obtain ⟨n, rfl, h1, h2⟩ := m_docsep_shape h; exact single_WF h1 h2
  · intro r h; obtain ⟨n, rfl, h1, h2⟩ := m_commentTodo_shape h; exact single_WF h1 h2
  · intro r h; obtain ⟨n, rfl, h1, h2⟩ := m_comment_shape h; exact single_WF h1 h2
  · intro r h
    obtain ⟨hls, n, rfl, h1, h2, h3, h4⟩ := m_merge_shape h
    exact single_WF h1 h2
  · intro r h; obtain ⟨n, rfl, h1, h2⟩ := m_tag1_shape h; exact single_WF h1 h2
  · intro r h; exact m_tag2_WF h
  · intro r h; obtain ⟨n, rfl, h1, h2⟩ := m_interp_shape h; exact single_WF h1 h2
  · intro r h; obtain ⟨n, rfl, h1, h2⟩ := m_nodeRepl_shape h; exact single_WF h1 h2
  · intro r h; exact m_blockMarker_WF h
  · intro r h; obtain ⟨rfl, h2⟩ := m_dquoteOpen_shape h; exact single_WF (by omega) h2
  · intro r h; obtain ⟨n, rfl, h1, h2⟩ := m_sstring_shape h; exact single_WF h1 h2
  · intro r h; obtain ⟨n, rfl, h1, h2⟩ := m_float_shape h; exact single_WF h1 h2
  · intro r h; obtain ⟨n, rfl, h1, h2⟩ := m_int_shape h; exact single_WF h1 h2
  · intro r h; obtain ⟨n, rfl, h1, h2⟩ := m_hex_shape h; exact single_WF h1 h2
  · intro r h; obtain ⟨n, rfl, h1, h2⟩ := m_oct_shape h; exact single_WF h1 h2
  · intro r h; obtain ⟨n, rfl, h1, h2⟩ := m_bool_shape h; exact single_WF h1 h2
  · intro r h; obtain ⟨n, rfl, h1, h2⟩ := m_brack_shape h; exact single_WF h1 h2
  · intro r h; obtain ⟨n, rfl, h1, h2⟩ := m_punct2_shape h; exact single_WF h1 h2
  · intro r h; obtain ⟨n, rfl, h1, h2⟩ := m_ws_shape h; exact single_WF h1 h2
  · intro r h; obtain ⟨n, rfl, h1, h2⟩ := m_name_shape h; exact single_WF h1 h2

theorem tagArgsRules_WF (prev : Option Char) (l : List Char) :
    ∀ r, tagArgsRules prev l = some r → WF l r := by
  unfold tagArgsRules
  refine ob_elim ?_ (ob_elim ?_ (ob_elim ?_ (ob_elim ?_ (ob_elim ?_
    (ob_elim ?_ (ob_elim ?_ (ob_elim ?_ ?_)))))))
  · intro r h; obtain ⟨rfl, h2⟩ := m_dquoteOpen_shape h; exact single_WF (by omega) h2
  · intro r h; obtain ⟨n, rfl, h1, h2⟩ := m_sstring_shape h; exact single_WF h1 h2
  · intro r h; obtain ⟨n, rfl, h1, h2⟩ := m_float_shape h; exact single_WF h1 h2
  · intro r h; obtain ⟨n, rfl, h1, h2⟩ := m_int_shape h; exact single_WF h1 h2
  · intro r h; obtain ⟨n, rfl, h1, h2⟩ := m_bool_shape h; exact single_WF h1 h2
  · intro r h; obtain ⟨n, rfl, h1, h2⟩ := m_taName_shape h; exact single_WF h1 h2
  · intro r h; obtain ⟨n, rfl, h1, h2⟩ := m_comma_shape h; exact single_WF h1 h2
  · intro r h; obtain ⟨rfl, h2⟩ := m_closeParen_shape h; exact single_WF (by omega) h2
  · intro r h; obtain ⟨n, rfl, h1, h2⟩ := m_ws_shape h; exact single_WF h1 h2

theorem dsRules_WF (l : List Char) :
    ∀ r, dsRules l = some r → WF l r := by
  unfold dsRules
  refine ob_elim ?_ (ob_elim ?_ (ob_elim ?_ ?_))
  · intro r h; obtain ⟨n, rfl, h1, h2⟩ := m_escape_shape h; exact single_WF h1 h2
  · intro r h; obtain ⟨n, rfl, h1, h2⟩ := m_interp_shape h; exact single_WF h1 h2
  · intro r h; obtain ⟨rfl, h2⟩ := m_dquoteClose_shape h; exact single_WF (by omega) h2
  · intro r h; obtain ⟨n, rfl, h1, h2⟩ := m_dsPlain_shape h; exact single_WF h1 h2

theorem blRules_WF (ls : Bool) (l : List Char) :
    ∀ r, blRules ls l = some r → WF l r := by
  unfold blRules
  refine ob_elim ?_ ?_
  · intro r h; obtain ⟨n, rfl, h1, h2⟩ := m_blockLine_shape h; exact single_WF h1 h2
  · intro r h; obtain ⟨rfl, h2⟩ := m_blockEnd_shape h; exact single_WF (by omega) h2

theorem firstMatch_WF (s : List Char) (pos : Nat) (m : Mode) :
    ∀ r, firstMatch s pos m = some r → WF (s.drop pos) r := by
  unfold firstMatch
  cases m with
  | root => exact rootRules_WF _ _ _
  | tagArgs => exact tagArgsRules_WF _ _
  | doubleString => exact dsRules_WF _
  | blockLiteral => exact blRules_WF _ _

theorem step_pos_gt (s : List Char) (pos : Nat) (stack : List Mode) :
    pos < (step s pos stack).pos := by
  unfold step
  cases hm : firstMatch s pos (curMode stack) with
  | some r =>
    obtain ⟨h1, h2, h3⟩ := firstMatch_WF s pos (curMode stack) r hm
    dsimp only
    omega
  | none =>
    dsimp only
    omega

/-! ### Emitted tokens are ordered, non-overlapping and in-bounds -/

theorem relok_le {bound : Nat} :
    ∀ {ts : List TokSpec} {lo : Nat}, RelOk bound lo ts → lo ≤ bound := by
  intro ts
  induction ts with
  | nil => intro lo h; exact h
  | cons tk rest ih =>
    intro lo h
    obtain ⟨h1, h2, h3⟩ := h
    have h4 := ih h3
    omega

theorem chained_mono : ∀ {ts : List Token} {lo lo' : Nat}, lo' ≤ lo →
    chainedFrom lo ts = true → chainedFrom lo' ts = true := by
  intro ts
  cases ts with
  | nil => intro lo lo' h1 h2; rfl
  | cons t rest =>
    intro lo lo' h1 h2
    simp only [chainedFrom, Bool.and_eq_true, decide_eq_true_eq] at h2 ⊢
    exact ⟨⟨by omega, h2.1.2⟩, h2.2⟩

theorem chup_append {m : Nat} :
    ∀ {a : List Token} {lo : Nat} {b : List Token}, ChUp m lo a →
      chainedFrom m b = true → chainedFrom lo (a ++ b) = true := by
  intro a
  induction a with
  | nil =>
    intro lo b h1 h2
    exact chained_mono h1 h2
  | cons t rest ih =>
    intro lo b h1 h2
    obtain ⟨ha, hb, hc⟩ := h1
    simp only [List.cons_append, chainedFrom, Bool.and_eq_true,
      decide_eq_true_eq]
    exact ⟨⟨ha, hb⟩, ih hc h2⟩

theorem map_chup (s : List Char) (pos : Nat) {bound : Nat}
    (hb : pos + bound ≤ s.length) :
    ∀ (ts : List TokSpec) (lo : Nat), RelOk bound lo ts →
      ChUp (pos + bound) (pos + lo) (ts.map (mkTok s pos)) := by
  intro ts
  induction ts with
  | nil =>
    intro lo h
    show pos + lo ≤ pos + bound
    have h2 : lo ≤ bound := h
    omega
  | cons tk rest ih =>
    intro lo h
    obtain ⟨h1, h2, h3⟩ := h
    have h4 : tk.off + tk.len ≤ bound := relok_le h3
    have hlen : (mkTok s pos tk).lex.length = tk.len := by
      simp only [mkTok, List.length_take, List.length_drop]
      omega
    refine ⟨?_, ?_, ?_⟩
    · show pos + lo ≤ (mkTok s pos tk).off
      simp only [mkTok]
      omega
    · rw [hlen]; exact h2
    · have h5 := ih (tk.off + tk.len) h3
      rw [hlen]
      show ChUp (pos + bound) ((mkTok s pos tk).off + tk.len)
        (rest.map (mkTok s pos))
      simp only [mkTok]
      have he : pos + tk.off + tk.len = pos + (tk.off + tk.len) := by omega
      rw [he]
      exact h5

theorem step_chup (s : List Char) (pos : Nat) (stack : List Mode)
    (h : pos < s.length) :
    ChUp (step s pos stack).pos pos (step s pos stack).toks := by
  unfold step
  cases hm : firstMatch s pos (curMode stack) with
  | some r =>
    obtain ⟨h1, h2, h3⟩ := firstMatch_WF s pos (curMode stack) r hm
    dsimp only
    have hb : pos + r.len ≤ s.length := by
      simp only [List.length_drop] at h2
      omega
    have h4 := map_chup s pos hb r.toks 0 h3
    simpa using h4
  | none =>
    dsimp only
    refine ⟨Nat.le_refl pos, ?_, ?_⟩
    · simp only [List.length_take, List.length_drop]
      omega
    · show pos + ((s.drop pos).take 1).length ≤ pos + 1
      simp only [List.length_take, List.length_drop]
      omega

theorem step_lex (s : List Char) (pos : Nat) (stack : List Mode) :
    ∀ t ∈ (step s pos stack).toks,
      List.isPrefixOf t.lex (s.drop t.off) = true := by
  unfold step
  cases hm : firstMatch s pos (curMode stack) with
  | some r =>
    dsimp only
    intro t ht
    simp only [List.mem_map] at ht
    obtain ⟨tk, htk, rfl⟩ := ht
    simp only [mkTok]
    exact take_isPre _ _
  | none =>
    dsimp only
    intro t ht
    simp only [List.mem_singleton] at ht
    subst ht
    exact take_isPre _ _

theorem tokAux_chained (s : List Char) :
    ∀ (fuel pos : Nat) (stack : List Mode),
      chainedFrom pos (tokenizeAux s fuel pos stack).1 = true := by
  intro fuel
  induction fuel with
  | zero => intro pos stack; rfl
  | succ fuel ih =>
    intro pos stack
    unfold tokenizeAux
    split
    · rename_i hlt
      dsimp only
      exact chup_append (step_chup s pos stack hlt)
        (ih (step s pos stack).pos (step s pos stack).stack)
    · rfl

theorem tokAux_lex (s : List Char) :
    ∀ (fuel pos : Nat) (stack : List Mode) (t : Token),
      t ∈ (tokenizeAux s fuel pos stack).1 →
      List.isPrefixOf t.lex (s.drop t.off) = true := by
  intro fuel
  induction fuel with
  | zero => intro pos stack t ht; cases ht
  | succ fuel ih =>
    intro pos stack t ht
    unfold tokenizeAux at ht
    split at ht
    · rename_i hlt
      dsimp only at ht
      rw [List.mem_append] at ht
      cases ht with
      | inl h1 => exact step_lex s pos stack t h1
      | inr h2 => exact ih _ _ t h2
    · cases ht

theorem chained_mem_pos :
    ∀ {ts : List Token} {lo : Nat} {t : Token}, chainedFrom lo ts = true →
      t ∈ ts → 1 ≤ t.lex.length := by
  intro ts
  induction ts with
  | nil => intro lo t h1 h2; cases h2
  | cons u rest ih =>
    intro lo t h1 h2
    simp only [chainedFrom, Bool.and_eq_true, decide_eq_true_eq] at h1
    cases h2 with
    | head => exact h1.1.2
    | tail _ h3 => exact ih h1.2 h3

theorem chained_sum_le (n : Nat) :
    ∀ (ts : List Token) (lo : Nat), chainedFrom lo ts = true →
      (∀ t ∈ ts, t.off + t.lex.length ≤ n) → lo ≤ n →
      sumLex ts ≤ n - lo := by
  intro ts
  induction ts with
  | nil => intro lo h1 h2 h3; simp [sumLex]
  | cons t rest ih =>
    intro lo h1 h2 h3
    simp only [chainedFrom, Bool.and_eq_true, decide_eq_true_eq] at h1
    have h4 := ih (t.off + t.lex.length) h1.2
      (fun u hu => h2 u (List.mem_cons_of_mem t hu))
      (h2 t (List.mem_cons_self t rest))
    have h5 := h2 t (List.mem_cons_self t rest)
    show t.lex.length + sumLex rest ≤ n - lo
    omega

theorem stepsAux_le (s : List Char) :
    ∀ (fuel pos : Nat) (stack : List Mode),
      stepsAux s fuel pos stack ≤ s.length - pos := by
  intro fuel
  induction fuel with
  | zero => intro pos stack; simp [stepsAux]
  | succ fuel ih =>
    intro pos stack
    unfold stepsAux
    split
    · rename_i hlt
      dsimp only
      have h1 := ih (step s pos stack).pos (step s pos stack).stack
      have h2 := step_pos_gt s pos stack
      omega
    · omega

/-! ### Operator tokens come only from the merge-key rule -/

theorem single_kind_elim {K : Kind} {n : Nat} {tr : Trans}
    (hne : K ≠ Kind.operator) :
    ∀ tk ∈ (single K n tr).toks, tk.kind = Kind.operator → False := by
  intro tk htk hk
  simp only [single, List.mem_singleton] at htk
  subst htk
  exact hne hk

theorem rootRules_operator (ls : Bool) (prev : Option Char) (l : List Char) :
    ∀ r, rootRules ls prev l = some r →
      ∀ tk ∈ r.toks, tk.kind = Kind.operator →
        tk.off = 0 ∧ ls = true ∧
        ((l.take (runLen isWS l)).all isWS) = true ∧
        List.isPrefixOf ['<', '<', ':'] (l.drop (runLen isWS l)) = true := by
  unfold rootRules
  refine ob_elim ?_ (ob_elim ?_ (ob_elim ?_ (ob_elim ?_ (ob_elim ?_
    (ob_elim ?_ (ob_elim ?_ (ob_elim ?_ (ob_elim ?_ (ob_elim ?_
    (ob_elim ?_ (ob_elim ?_ (ob_elim ?_ (ob_elim ?_ (ob_elim ?_
    (ob_elim ?_ (ob_elim ?_ (ob_elim ?_ (ob_elim ?_ ?_))))))))))))))))))
  · intro r h tk htk hk
    obtain ⟨n, rfl, h1, h2⟩ := m_docsep_shape h
    exact (single_kind_elim (by decide) tk htk hk).elim
  · intro r h tk htk hk
    obtain ⟨n, rfl, h1, h2⟩ := m_commentTodo_shape h
    exact (single_kind_elim (by decide) tk htk hk).elim
  · intro r h tk htk hk
    obtain ⟨n, rfl, h1, h2⟩ := m_comment_shape h
    exact (single_kind_elim (by decide) tk htk hk).elim
  · intro r h tk htk hk
    obtain ⟨hls, n, rfl, h1, h2, h3, h4⟩ := m_merge_shape h
    simp only [single, List.mem_singleton] at htk
    subst htk
    exact ⟨rfl, hls, h3, h4⟩
  · intro r h tk htk hk
    obtain ⟨n, rfl, h1, h2⟩ := m_tag1_shape h
    exact (single_kind_elim (by decide) tk htk hk).elim
  · intro r h tk htk hk
    obtain ⟨rl, rest, hl, hrl, rfl, h1, h2, tl, htl⟩ := m_tag2_shape h
    simp only [List.mem_singleton] at htk
    subst htk
    simp at hk
  · intro r h tk htk hk
    obtain ⟨n, rfl, h1, h2⟩ := m_interp_shape h
    exact (single_kind_elim (by decide) tk htk hk).elim
  · intro r h tk htk hk
    obtain ⟨n, rfl, h1, h2⟩ := m_nodeRepl_shape h
    exact (single_kind_elim (by decide) tk htk hk).elim
  · intro r h tk htk hk
    obtain ⟨hls, w, opt, t, htoks, hlen, htr, h1, h2⟩ := m_blockMarker_shape h
    rw [htoks] at htk
    rw [List.mem_append] at htk
    cases htk with
    | inl h3 =>
      by_cases hw : (w == 0) = true
      · simp [hw] at h3
      · simp only [hw, Bool.false_eq_true, if_false,
          List.mem_singleton] at h3
        subst h3
        simp at hk
    | inr h3 =>
      simp only [List.mem_singleton] at h3
      subst h3
      simp at hk
  · intro r h tk htk hk
    obtain ⟨rfl, h2⟩ := m_dquoteOpen_shape h
    exact (single_kind_elim (by decide) tk htk hk).elim
  · intro r h tk htk hk
    obtain ⟨n, rfl, h1, h2⟩ := m_sstring_shape h
    exact (single_kind_elim (by decide) tk htk hk).elim
  · intro r h tk htk hk
    obtain ⟨n, rfl, h1, h2⟩ := m_float_shape h
    exact (single_kind_elim (by decide) tk htk hk).elim
  · intro r h tk htk hk
    obtain ⟨n, rfl, h1, h2⟩ := m_int_shape h
    exact (single_kind_elim (by decide) tk htk hk).elim
  · intro r h tk htk hk
    obtain ⟨n, rfl, h1, h2⟩ := m_hex_shape h
    exact (single_kind_elim (by decide) tk htk hk).elim
  · intro r h tk htk hk
    obtain ⟨n, rfl, h1, h2⟩ := m_oct_shape h
    exact (single_kind_elim (by decide) tk htk hk).elim
  · intro r h tk htk hk
    obtain ⟨n, rfl, h1, h2⟩ := m_bool_shape h
    exact (single_kind_elim (by decide) tk htk hk).elim
  · intro r h tk htk hk
    obtain ⟨n, rfl, h1, h2⟩ := m_brack_shape h
    exact (single_kind_elim (by decide) tk htk hk).elim
  · intro r h tk htk hk
    obtain ⟨n, rfl, h1, h2⟩ := m_punct2_shape h
    exact (single_kind_elim (by decide) tk htk hk).elim
  · intro r h tk htk hk
    obtain ⟨n, rfl, h1, h2⟩ := m_ws_shape h
    exact (single_kind_elim (by decide) tk htk hk).elim
  · intro r h tk htk hk
    obtain ⟨n, rfl, h1, h2⟩ := m_name_shape h
    exact (single_kind_elim (by decide) tk htk hk).elim

theorem tagArgsRules_no_operator (prev : Option Char) (l : List Char) :
    ∀ r, tagArgsRules prev l = some r →
      ∀ tk ∈ r.toks, tk.kind = Kind.operator → False := by
  unfold tagArgsRules
  refine ob_elim ?_ (ob_elim ?_ (ob_elim ?_ (ob_elim ?_ (ob_elim ?_
    (ob_elim ?_ (ob_elim ?_ (ob_elim ?_ ?_)))))))
  · intro r h
    obtain ⟨rfl, h2⟩ := m_dquoteOpen_shape h
    exact single_kind_elim (by decide)
  · intro r h
    obtain ⟨n, rfl, h1, h2⟩ := m_sstring_shape h
    exact single_kind_elim (by decide)
  · intro r h
    obtain ⟨n, rfl, h1, h2⟩ := m_float_shape h
    exact single_kind_elim (by decide)
  · intro r h
    obtain ⟨n, rfl, h1, h2⟩ := m_int_shape h
    exact single_kind_elim (by decide)
  · intro r h
    obtain ⟨n, rfl, h1, h2⟩ := m_bool_shape h
    exact single_kind_elim (by decide)
  · intro r h
    obtain ⟨n, rfl, h1, h2⟩ := m_taName_shape h
    exact single_kind_elim (by decide)
  · intro r h
    obtain ⟨n, rfl, h1, h2⟩ := m_comma_shape h
    exact single_kind_elim (by decide)
  · intro r h
    obtain ⟨rfl, h2⟩ := m_closeParen_shape h
    exact single_kind_elim (by decide)
  · intro r h
    obtain ⟨n, rfl, h1, h2⟩ := m_ws_shape h
    exact single_kind_elim (by decide)

theorem dsRules_no_operator (l : List Char) :
    ∀ r, dsRules l = some r →
      ∀ tk ∈ r.toks, tk.kind = Kind.operator → False := by
  unfold dsRules
  refine ob_elim ?_ (ob_elim ?_ (ob_elim ?_ ?_))
  · intro r h
    obtain ⟨n, rfl, h1, h2⟩ := m_escape_shape h
    exact single_kind_elim (by decide)
  · intro r h
    obtain ⟨n, rfl, h1, h2⟩ := m_interp_shape h
    exact single_kind_elim (by decide)
  · intro r h
    obtain ⟨rfl, h2⟩ := m_dquoteClose_shape h
    exact single_kind_elim (by decide)
  · intro r h
    obtain ⟨n, rfl, h1, h2⟩ := m_dsPlain_shape h
    exact single_kind_elim (by decide)

theorem blRules_no_operator (ls : Bool) (l : List Char) :
    ∀ r, blRules ls l = some r →
      ∀ tk ∈ r.toks, tk.kind = Kind.operator → False := by
  unfold blRules
  refine ob_elim ?_ ?_
  · intro r h
    obtain ⟨n, rfl, h1, h2⟩ := m_blockLine_shape h
    exact single_kind_elim (by decide)
  · intro r h
    obtain ⟨rfl, h2⟩ := m_blockEnd_shape h
    exact single_kind_elim (by decide)

theorem step_operator (s : List Char) (pos : Nat) (stack : List Mode) :
    ∀ t ∈ (step s pos stack).toks, t.kind = Kind.operator → OpShape s t := by
  unfold step
  cases hm : firstMatch s pos (curMode stack) with
  | some r =>
    dsimp only
    intro t ht hk
    simp only [List.mem_map] at ht
    obtain ⟨tk, htk, rfl⟩ := ht
    have hk2 : tk.kind = Kind.operator := hk
    unfold firstMatch at hm
    cases hcm : curMode stack with
    | root =>
      rw [hcm] at hm
      obtain ⟨hoff, hls, h3, h4⟩ :=
        rootRules_operator (lineStartB s pos) (prevCh s pos) (s.drop pos)
          r hm tk htk hk2
      have hofft : (mkTok s pos tk).off = pos := by
        simp [mkTok, hoff]
      rw [OpShape, hofft]
      exact ⟨hls, h3, h4⟩
    | tagArgs =>
      rw [hcm] at hm
      exact ((tagArgsRules_no_operator (prevCh s pos) (s.drop pos) r hm)
        tk htk hk2).elim
    | doubleString =>
      rw [hcm] at hm
      exact ((dsRules_no_operator (s.drop pos) r hm) tk htk hk2).elim
    | blockLiteral =>
      rw [hcm] at hm
      exact ((blRules_no_operator (lineStartB s pos) (s.drop pos) r hm)
        tk htk hk2).elim
  | none =>
    dsimp only
    intro t ht hk
    simp only [List.mem_singleton] at ht
    subst ht
    simp at hk

theorem tokAux_operator (s : List Char) :
    ∀ (fuel pos : Nat) (stack : List Mode) (t : Token),
      t ∈ (tokenizeAux s fuel pos stack).1 → t.kind = Kind.operator →
      OpShape s t := by
  intro fuel
  induction fuel with
  | zero => intro pos stack t ht; cases ht
  | succ fuel ih =>
    intro pos stack t ht hk
    unfold tokenizeAux at ht
    split at ht
    · dsimp only at ht
      rw [List.mem_append] at ht
      cases ht with
      | inl h1 => exact step_operator s pos stack t h1 hk
      | inr h2 => exact ih _ _ t h2 hk
    · cases ht

/-! ### The tag-args mode is never pushed -/

theorem rootRules_trans (ls : Bool) (prev : Option Char) (l : List Char) :
    ∀ r, rootRules ls prev l = some r → r.trans ≠ Trans.push Mode.tagArgs := by
  unfold rootRules
  refine ob_elim ?_ (ob_elim ?_ (ob_elim ?_ (ob_elim ?_
    (ob_shadow (tag2_shadowed l) ?_
    (ob_elim ?_ (ob_elim ?_ (ob_elim ?_ (ob_elim ?_
    (ob_elim ?_ (ob_elim ?_ (ob_elim ?_ (ob_elim ?_ (ob_elim ?_
    (ob_elim ?_ (ob_elim ?_ (ob_elim ?_ (ob_elim ?_ ?_)))))))))))))))))
  · intro r h
    obtain ⟨n, rfl, h1, h2⟩ := m_docsep_shape h
    simp [single]
  · intro r h
    obtain ⟨n, rfl, h1, h2⟩ := m_commentTodo_shape h
    simp [single]
  · intro r h
    obtain ⟨n, rfl, h1, h2⟩ := m_comment_shape h
    simp [single]
  · intro r h
    obtain ⟨hls, n, rfl, h1, h2, h3, h4⟩ := m_merge_shape h
    simp [single]
  · intro r h
    obtain ⟨n, rfl, h1, h2⟩ := m_tag1_shape h
    simp [single]
  · intro r h
    obtain ⟨n, rfl, h1, h2⟩ := m_interp_shape h
    simp [single]
  · intro r h
    obtain ⟨n, rfl, h1, h2⟩ := m_nodeRepl_shape h
    simp [single]
  · intro r h
    obtain ⟨hls, w, opt, t, htoks, hlen, htr, h1, h2⟩ := m_blockMarker_shape h
    rw [htr]
    simp
  · intro r h
    obtain ⟨rfl, h2⟩ := m_dquoteOpen_shape h
    simp [single]
  · intro r h
    obtain ⟨n, rfl, h1, h2⟩ := m_sstring_shape h
    simp [single]
  · intro r h
    obtain ⟨n, rfl, h1, h2⟩ := m_float_shape h
    simp [single]
  · intro r h
    obtain ⟨n, rfl, h1, h2⟩ := m_int_shape h
    simp [single]
  · intro r h
    obtain ⟨n, rfl, h1, h2⟩ := m_hex_shape h
    simp [single]
  · intro r h
    obtain ⟨n, rfl, h1, h2⟩ := m_oct_shape h
    simp [single]
  · intro r h
    obtain ⟨n, rfl, h1, h2⟩ := m_bool_shape h
    simp [single]
  · intro r h
    obtain ⟨n, rfl, h1, h2⟩ := m_brack_shape h
    simp [single]
  · intro r h
    obtain ⟨n, rfl, h1, h2⟩ := m_punct2_shape h
    simp [single]
  · intro r h
    obtain ⟨n, rfl, h1, h2⟩ := m_ws_shape h
    simp [single]
  · intro r h
    obtain ⟨n, rfl, h1, h2⟩ := m_name_shape h
    simp [single]

theorem tagArgsRules_trans (prev : Option Char) (l : List Char) :
    ∀ r, tagArgsRules prev l = some r → r.trans ≠ Trans.push Mode.tagArgs := by
  unfold tagArgsRules
  refine ob_elim ?_ (ob_elim ?_ (ob_elim ?_ (ob_elim ?_ (ob_elim ?_
    (ob_elim ?_ (ob_elim ?_ (ob_elim ?_ ?_)))))))
  · intro r h
    obtain ⟨rfl, h2⟩ := m_dquoteOpen_shape h
    simp [single]
  · intro r h
    obtain ⟨n, rfl, h1, h2⟩ := m_sstring_shape h
    simp [single]
  · intro r h
    obtain ⟨n, rfl, h1, h2⟩ := m_float_shape h
    simp [single]
  · intro r h
    obtain ⟨n, rfl, h1, h2⟩ := m_int_shape h
    simp [single]
  · intro r h
    obtain ⟨n, rfl, h1, h2⟩ := m_bool_shape h
    simp [single]
  · intro r h
    obtain ⟨n, rfl, h1, h2⟩ := m_taName_shape h
    simp [single]
  · intro r h
    obtain ⟨n, rfl, h1, h2⟩ := m_comma_shape h
    simp [single]
  · intro r h
    obtain ⟨rfl, h2⟩ := m_closeParen_shape h
    simp [single]
  · intro r h
    obtain ⟨n, rfl, h1, h2⟩ := m_ws_shape h
    simp [single]

theorem dsRules_trans (l : List Char) :
    ∀ r, dsRules l = some r → r.trans ≠ Trans.push Mode.tagArgs := by
  unfold dsRules
  refine ob_elim ?_ (ob_elim ?_ (ob_elim ?_ ?_))
  · intro r h
    obtain ⟨n, rfl, h1, h2⟩ := m_escape_shape h
    simp [single]
  · intro r h
    obtain ⟨n, rfl, h1, h2⟩ := m_interp_shape h
    simp [single]
  · intro r h
    obtain ⟨rfl, h2⟩ := m_dquoteClose_shape h
    simp [single]
  · intro r h
    obtain ⟨n, rfl, h1, h2⟩ := m_dsPlain_shape h
    simp [single]

theorem blRules_trans (ls : Bool) (l : List Char) :
    ∀ r, blRules ls l = some r → r.trans ≠ Trans.push Mode.tagArgs := by
  unfold blRules
  refine ob_elim ?_ ?_
  · intro r h
    obtain ⟨n, rfl, h1, h2⟩ := m_blockLine_shape h
    simp [single]
  · intro r h
    obtain ⟨rfl, h2⟩ := m_blockEnd_shape h
    simp [single]

theorem firstMatch_trans (s : List Char) (pos : Nat) (m : Mode) :
    ∀ r, firstMatch s pos m = some r → r.trans ≠ Trans.push Mode.tagArgs := by
  unfold firstMatch
  cases m with
  | root => exact rootRules_trans _ _ _
  | tagArgs => exact tagArgsRules_trans _ _
  | doubleString => exact dsRules_trans _
  | blockLiteral => exact blRules_trans _ _

theorem step_no_tagArgs (s : List Char) (pos : Nat) (stack : List Mode)
    (h : Mode.tagArgs ∉ stack) :
    Mode.tagArgs ∉ (step s pos stack).stack := by
  unfold step
  cases hm : firstMatch s pos (curMode stack) with
  | some r =>
    dsimp only
    have ht := firstMatch_trans s pos (curMode stack) r hm
    unfold applyTrans
    cases htr : r.trans with
    | stay => exact h
    | push m =>
      intro hmem
      rw [List.mem_cons] at hmem
      cases hmem with
      | inl h1 =>
        rw [htr] at ht
        exact ht (by rw [h1])
      | inr h2 => exact h h2
    | pop =>
      intro hmem
      cases stack with
      | nil => cases hmem
      | cons a rest => exact h (List.mem_cons_of_mem a hmem)
  | none =>
    dsimp only
    exact h

theorem traceAux_no_tagArgs (s : List Char) :
    ∀ (fuel pos : Nat) (stack : List Mode), Mode.tagArgs ∉ stack →
      ∀ st ∈ traceAux s fuel pos stack, Mode.tagArgs ∉ st.2 := by
  intro fuel
  induction fuel with
  | zero =>
    intro pos stack hstk st hst
    simp only [traceAux, List.mem_singleton] at hst
    subst hst
    exact hstk
  | succ fuel ih =>
    intro pos stack hstk st hst
    unfold traceAux at hst
    split at hst
    · rw [List.mem_cons] at hst
      cases hst with
      | inl h1 => subst h1; exact hstk
      | inr h2 =>
        exact ih (step s pos stack).pos (step s pos stack).stack
          (step_no_tagArgs s pos stack hstk) st h2
    · simp only [List.mem_singleton] at hst
      subst hst
      exact hstk

/-! ### Evaluating the driver on one-line comment inputs -/

theorem ob_none (b : Option RuleOut) : ob none b = b := rfl

theorem ob_some (r : RuleOut) (b : Option RuleOut) : ob (some r) b = some r := rfl

theorem m_docsep_hash (ls : Bool) (rest : List Char) :
    m_docsep ls ('#' :: rest) = none := by
  unfold m_docsep
  have hp : List.isPrefixOf ['-', '-', '-'] ('#' :: rest) = false := by
    have hne : (('-' : Char) == '#') = false := by decide
    simp [List.isPrefixOf, hne]
  rw [hp, Bool.and_false]
  simp

theorem nl_not_mem_hash {rest : List Char} (hnl : '\n' ∉ rest) :
    '\n' ∉ ('#' :: rest) := by
  intro hmem
  rw [List.mem_cons] at hmem
  cases hmem with
  | inl h1 => cases h1
  | inr h2 => exact hnl h2

theorem m_commentTodo_hash {rest : List Char} (hnl : '\n' ∉ rest) :
    m_commentTodo ('#' :: rest) =
      (if markerIn rest then
        some (single .commentSpecial (rest.length + 1) .stay)
       else none) := by
  have e : m_commentTodo ('#' :: rest) =
      (if markerIn ((('#' :: rest).take (lineEnd ('#' :: rest))).drop 1) then
        some (single .commentSpecial (lineEnd ('#' :: rest)) .stay)
       else none) := rfl
  rw [e]
  have h2 : lineEnd ('#' :: rest) = rest.length + 1 := by
    have h3 := lineEnd_eq_length (nl_not_mem_hash hnl)
    simpa using h3
  rw [h2]
  have h4 : ('#' :: rest).take (rest.length + 1) = '#' :: rest := by
    have h5 : rest.length + 1 = ('#' :: rest).length := by simp
    rw [h5, List.take_length]
  rw [h4]
  rfl

theorem m_comment_hash {rest : List Char} (hnl : '\n' ∉ rest) :
    m_comment ('#' :: rest) =
      some (single .comment (rest.length + 1) .stay) := by
  have e : m_comment ('#' :: rest) =
      some (single .comment (lineEnd ('#' :: rest)) .stay) := rfl
  rw [e]
  have h2 : lineEnd ('#' :: rest) = rest.length + 1 := by
    have h3 := lineEnd_eq_length (nl_not_mem_hash hnl)
    simpa using h3
  rw [h2]

/-- When the first rule match consumes the whole input, the driver emits that
rule's tokens and stops. -/
theorem tokenize_single_rule (s : List Char) (r : RuleOut)
    (hfm : firstMatch s 0 Mode.root = some r)
    (hlen : r.len = s.length) (h0 : 0 < s.length) :
    tokenize s = r.toks.map (mkTok s 0) := by
  unfold tokenize tokenizeFull
  cases hsl : s.length with
  | zero => omega
  | succ n =>
    unfold tokenizeAux
    rw [if_pos (by omega)]
    have hstep : step s 0 [Mode.root] =
        ⟨r.toks.map (mkTok s 0), 0 + r.len, applyTrans r.trans [Mode.root]⟩ := by
      unfold step
      have hcm : curMode [Mode.root] = Mode.root := rfl
      rw [hcm, hfm]
    rw [hstep]
    dsimp only
    rw [tokAux_stopped s n (0 + r.len) _ (by omega)]
    simp

/-! ### Claims -/

/-- Claim C7: tokenizing the input `"a$[x]b"` yields, between the opening and
closing double-quote string tokens, a string token for `a`, a variable-name
token for `$[x]`, and a string token for `b`; the closing double quote pops
back to the enclosing mode, leaving the final mode stack at `root`. -/
theorem c7_interpolation :
    tokenizeFull (("\"a$[x]b\"").toList) =
      ([⟨0, Kind.stringDouble, ("\"").toList⟩,
        ⟨1, Kind.stringDouble, ("a").toList⟩,
        ⟨2, Kind.nameVariable, ("$[x]").toList⟩,
        ⟨6, Kind.stringDouble, ("b").toList⟩,
        ⟨7, Kind.stringDouble, ("\"").toList⟩], [Mode.root]) := by
  decide

/-- Claim C1 (counterexample): on the input `"|\n"` the block-literal marker
rule matches both characters but its `bygroups` action captures only the `|`,
so the emitted lexemes concatenate to `"|"`, not the input: the sum of token
lengths is 1 while the input length is 2. -/
theorem c1_coverage_counterexample :
    concatLex (tokenize (("|\n").toList)) ≠ ("|\n").toList ∧
    sumLex (tokenize (("|\n").toList)) = 1 ∧
    (("|\n").toList).length = 2 := by
  refine ⟨?_, by decide, by decide⟩
  decide

/-- Claim C1 (amended): for every input the emitted tokens are non-empty,
pairwise non-overlapping and in strictly increasing offset order; every
lexeme is the substring of the input at its offset; and the sum of the
lexeme lengths is at most the input length.  (Exact coverage fails: text
matched by the block-literal marker rule outside its capture groups is
dropped, see the counterexample.) -/
theorem c1_token_coverage :
    ∀ s : List Char,
      chainedFrom 0 (tokenize s) = true ∧
      ((tokenize s).all fun t => List.isPrefixOf t.lex (s.drop t.off)) = true ∧
      sumLex (tokenize s) ≤ s.length := by
  intro s
  have hch := tokAux_chained s s.length 0 [Mode.root]
  have hlex : ∀ t ∈ tokenize s, List.isPrefixOf t.lex (s.drop t.off) = true :=
    fun t ht => tokAux_lex s s.length 0 [Mode.root] t ht
  refine ⟨hch, ?_, ?_⟩
  · rw [List.all_eq_true]
    intro t ht
    exact hlex t ht
  · have hend : ∀ t ∈ tokenize s, t.off + t.lex.length ≤ s.length := by
      intro t ht
      have h1 := isPre_len (hlex t ht)
      have h2 := chained_mem_pos hch ht
      simp only [List.length_drop] at h1
      omega
    have h3 := chained_sum_le s.length (tokenize s) 0 hch hend (by omega)
    omega

/-- Claim C2: tokenizing `!tag(1, "x")` does not behave as specified: the
plain-tag rule (whose lookahead includes `(`) fires first and emits a keyword
token for `!tag` only, the `(1` falls to the name rule, and the `tag-args`
mode is never pushed; the closing `)` becomes a name token, not a keyword. -/
theorem c2_tag_args_evaluation :
    tokenizeFull (("!tag(1, \"x\")").toList) =
      ([⟨0, Kind.keyword, ("!tag").toList⟩,
        ⟨4, Kind.name, ("(1").toList⟩,
        ⟨6, Kind.punctuation, (", ").toList⟩,
        ⟨8, Kind.stringDouble, ("\"").toList⟩,
        ⟨9, Kind.stringDouble, ("x").toList⟩,
        ⟨10, Kind.stringDouble, ("\"").toList⟩,
        ⟨11, Kind.name, (")").toList⟩], [Mode.root]) ∧
    ((traceOf (("!tag(1, \"x\")").toList)).all
      fun st => !(st.2.contains Mode.tagArgs)) = true := by
  refine ⟨by decide, by decide⟩

/-- Claim C3 (counterexample): tokenizing `!foo.bar: 1` yields no keyword
token whose lexeme is `!foo.bar` and no punctuation token at all, because
the colon belongs to the tag character class and is absorbed into the
keyword lexeme. -/
theorem c3_tag_colon_counterexample :
    ((tokenize (("!foo.bar: 1").toList)).all
      fun t => !(t.kind == Kind.keyword && t.lex == ("!foo.bar").toList)) = true ∧
    ((tokenize (("!foo.bar: 1").toList)).all
      fun t => !(t.kind == Kind.punctuation)) = true := by
  refine ⟨by decide, by decide⟩

/-- Claim C3 (amended): tokenizing `!foo.bar: 1` yields a keyword token whose
lexeme is `!foo.bar:` (the colon, being in the tag character class, is
consumed by the greedy tag body, with the following space satisfying the
lookahead), then a plain-text token for the space, then a number token for
`1`; no separate punctuation token is emitted. -/
theorem c3_tag_colon_amended :
    tokenizeFull (("!foo.bar: 1").toList) =
      ([⟨0, Kind.keyword, ("!foo.bar:").toList⟩,
        ⟨9, Kind.text, (" ").toList⟩,
        ⟨10, Kind.numberInteger, ("1").toList⟩], [Mode.root]) := by
  decide

/-- Claim C4 (counterexample): in block-literal mode the first non-indented
line is not left unconsumed: the rule `^[^\s]` consumes its first character
as a plain-text token while popping, so for the input `"|\n  a\n  b\nc"` the
token at offset 10 is a plain-text token `c`, whereas tokenizing the line
`c` alone in `root` yields a name token. -/
theorem c4_block_boundary_counterexample :
    ((tokenize (("|\n  a\n  b\nc").toList)).filter
      fun t => t.off == 10) = [⟨10, Kind.text, ("c").toList⟩] ∧
    tokenize (("c").toList) = [⟨0, Kind.name, ("c").toList⟩] := by
  refine ⟨by decide, by decide⟩

/-- Claim C4 (amended): a `|` line followed by two indented lines and a
non-indented line yields two block-content string tokens (one per indented
line, excluding the newlines, which fall to the one-character fallback);
the pop rule consumes the first character of the non-indented line as a
plain-text token, and the rest of that line is then tokenized in `root`
(here the line is that single character, and the final stack is `root`). -/
theorem c4_block_boundary_amended :
    tokenizeFull (("|\n  a\n  b\nc").toList) =
      ([⟨0, Kind.punctuation, ("|").toList⟩,
        ⟨1, Kind.text, ("\n").toList⟩,
        ⟨2, Kind.string, ("  a").toList⟩,
        ⟨5, Kind.text, ("\n").toList⟩,
        ⟨6, Kind.string, ("  b").toList⟩,
        ⟨9, Kind.text, ("\n").toList⟩,
        ⟨10, Kind.text, ("c").toList⟩], [Mode.root]) := by
  decide

/-- Claim C6: the hexadecimal and octal number rules are dead: the integer
rule precedes them in the table and already matches their leading `0`, so
`0x1F` is tokenized as the integer `0` followed by the name `x1F` (and
`0o17` as `0` and `o17`), and no number-hex or number-oct token is ever
emitted for these inputs. -/
theorem c6_hex_octal_evaluation :
    tokenize (("0x1F").toList) =
      [⟨0, Kind.numberInteger, ("0").toList⟩,
       ⟨1, Kind.name, ("x1F").toList⟩] ∧
    tokenize (("0o17").toList) =
      [⟨0, Kind.numberInteger, ("0").toList⟩,
       ⟨1, Kind.name, ("o17").toList⟩] ∧
    ((tokenize (("0x1F").toList)).all
      fun t => !(t.kind == Kind.numberHex)) = true ∧
    ((tokenize (("0o17").toList)).all
      fun t => !(t.kind == Kind.numberOct)) = true := by
  refine ⟨by decide, by decide, by decide, by decide⟩

/-- Claim C5: tokenization terminates for every input in a number of driver
iterations bounded by the input length; every iteration strictly increases
the offset, and whenever no rule of the current mode matches at the offset,
exactly one plain-text fallback token of length one is emitted and the
offset advances by one. -/
theorem c5_termination :
    (∀ s : List Char, numSteps s ≤ s.length) ∧
    (∀ (s : List Char) (pos : Nat) (stack : List Mode), pos < s.length →
      pos < (step s pos stack).pos ∧
      (firstMatch s pos (curMode stack) = none →
        (step s pos stack).toks = [⟨pos, Kind.text, (s.drop pos).take 1⟩] ∧
        ((s.drop pos).take 1).length = 1 ∧
        (step s pos stack).pos = pos + 1)) := by
  constructor
  · intro s
    have h := stepsAux_le s s.length 0 [Mode.root]
    unfold numSteps
    omega
  · intro s pos stack hlt
    refine ⟨step_pos_gt s pos stack, ?_⟩
    intro hnone
    unfold step
    rw [hnone]
    refine ⟨rfl, ?_, rfl⟩
    simp only [List.length_take, List.length_drop]
    omega

/-- Claim C5 (witness): concrete instance at the one-character input `%`
and at offset 0 of that input. -/
theorem c5_termination_witness :
    numSteps (("%").toList) ≤ (("%").toList).length ∧
    0 < (step (("%").toList) 0 [Mode.root]).pos := by
  exact ⟨c5_termination.1 (("%").toList),
    (c5_termination.2 (("%").toList) 0 [Mode.root] (by decide)).1⟩

/-- Claim C9: the line `<<: base` yields an operator token at offset 0 whose
lexeme is the merge key with its trailing space, and, for every input, every
operator token in the emitted stream sits at a line start (offset 0 or right
after a newline) and its span there consists of a whitespace run followed
immediately by `<<:` — so a mid-line `<<:` (not at line start modulo leading
whitespace) is never tokenized as an operator. -/
theorem c9_merge_key :
    (tokenize (("<<: base").toList)).head? =
      some ⟨0, Kind.operator, ("<<: ").toList⟩ ∧
    ∀ (s : List Char) (t : Token), t ∈ tokenize s →
      t.kind = Kind.operator → OpShape s t := by
  constructor
  · decide
  · intro s t ht hk
    exact tokAux_operator s s.length 0 [Mode.root] t ht hk

/-- Claim C9 (witness): the operator token of the input `<<: b` satisfies
the line-start-and-merge-key shape. -/
theorem c9_merge_key_witness :
    OpShape (("<<: b").toList) ⟨0, Kind.operator, ("<<: ").toList⟩ := by
  exact c9_merge_key.2 (("<<: b").toList) ⟨0, Kind.operator, ("<<: ").toList⟩
    (by decide) rfl

/-- Claim C10: every string matched by the tag-with-args rule is also matched
at the same position by the earlier plain-tag rule (whose lookahead includes
an opening parenthesis), so under first-match ordering the push rule never
fires; consequently the mode stack never contains `tag-args` in any state
reached while tokenizing any input. -/
theorem c10_tag_args_unreachable :
    (∀ l : List Char, (m_tag2 l).isSome = true → (m_tag1 l).isSome = true) ∧
    ∀ (s : List Char) (st : Nat × List Mode), st ∈ traceOf s →
      Mode.tagArgs ∉ st.2 := by
  constructor
  · exact tag2_shadowed
  · intro s st hst
    exact traceAux_no_tagArgs s s.length 0 [Mode.root] (by decide) st hst

/-- Claim C10 (witness): concrete instances — the tag-with-args rule matches
`!t(1)` and so does the plain-tag rule; and the initial state of tokenizing
`!t(1)` has no `tag-args` on its stack. -/
theorem c10_tag_args_unreachable_witness :
    (m_tag1 (("!t(1)").toList)).isSome = true ∧
    Mode.tagArgs ∉ ((0, [Mode.root]) : Nat × List Mode).2 := by
  exact ⟨c10_tag_args_unreachable.1 (("!t(1)").toList) (by decide),
    c10_tag_args_unreachable.2 (("!t(1)").toList) (0, [Mode.root]) (by decide)⟩

/-- Claim C8: a one-line `#` comment containing one of the markers TODO,
FIXME, XXX, NOTE is emitted as a single comment-special token covering the
whole line (the marker rule precedes the general comment rule in the table),
while a one-line `#` comment without a marker is emitted as a single plain
comment token covering the whole line. -/
theorem c8_comment_priority :
    ∀ rest : List Char, '\n' ∉ rest →
      (markerIn rest = true →
        tokenize ('#' :: rest) = [⟨0, Kind.commentSpecial, '#' :: rest⟩]) ∧
      (markerIn rest = false →
        tokenize ('#' :: rest) = [⟨0, Kind.comment, '#' :: rest⟩]) := by
  intro rest hnl
  have h4 : ('#' :: rest).take (rest.length + 1) = '#' :: rest := by
    have h5 : rest.length + 1 = ('#' :: rest).length := by simp
    rw [h5, List.take_length]
  constructor
  · intro hmark
    have hfm : firstMatch ('#' :: rest) 0 Mode.root =
        some (single .commentSpecial (rest.length + 1) .stay) := by
      show rootRules (lineStartB ('#' :: rest) 0) (prevCh ('#' :: rest) 0)
        (('#' :: rest).drop 0) = _
      unfold rootRules
      rw [List.drop_zero, m_docsep_hash, ob_none, m_commentTodo_hash hnl,
        if_pos hmark, ob_some]
    have h6 := tokenize_single_rule ('#' :: rest) _ hfm (by simp [single])
      (by simp)
    rw [h6]
    simp only [single, List.map_cons, List.map_nil, mkTok]
    rw [Nat.add_zero, List.drop_zero, h4]
  · intro hmark
    have hfm : firstMatch ('#' :: rest) 0 Mode.root =
        some (single .comment (rest.length + 1) .stay) := by
      show rootRules (lineStartB ('#' :: rest) 0) (prevCh ('#' :: rest) 0)
        (('#' :: rest).drop 0) = _
      unfold rootRules
      rw [List.drop_zero, m_docsep_hash, ob_none, m_commentTodo_hash hnl,
        hmark]
      rw [if_neg (by simp), ob_none, m_comment_hash hnl, ob_some]
    have h6 := tokenize_single_rule ('#' :: rest) _ hfm (by simp [single])
      (by simp)
    rw [h6]
    simp only [single, List.map_cons, List.map_nil, mkTok]
    rw [Nat.add_zero, List.drop_zero, h4]

/-- Claim C8 (witness): the concrete comment lines `# TODO fix this` and
`# just a note`. -/
theorem c8_comment_priority_witness :
    tokenize ('#' :: ((" TODO fix this").toList)) =
      [⟨0, Kind.commentSpecial, '#' :: ((" TODO fix this").toList)⟩] ∧
    tokenize ('#' :: ((" just a note").toList)) =
      [⟨0, Kind.comment, '#' :: ((" just a note").toList)⟩] := by
  exact ⟨(c8_comment_priority ((" TODO fix this").toList) (by decide)).1
      (by decide),
    (c8_comment_priority ((" just a note").toList) (by decide)).2
      (by decide)⟩
